import Mathlib

/-!
Verification of the two command-line tools of this repository against their
specification: the artifact-cleanup tool (`repo_cleanup.py`) and the
Bitbucket bulk clone/sync tool (`scripts/clone_bitbucket_projects.py`).

The Python sources are shallowly embedded: pure functions become Lean
functions, the filesystem walked by the cleanup tool becomes an inductive
tree, and git subprocess interaction becomes an oracle mapping a command
line to its `CompletedProcess` result, together with an explicit trace of
the commands issued.  All definitions are executable so that concrete
witnesses evaluate by `decide`.
-/

namespace Spec2Proof

/-! ## String utilities

Python string operations used by the sources, implemented over `List Char`
so that they reduce in the kernel.  `pyStrip` is `str.strip()`, `pySplitWS`
is `str.split()` (split on whitespace runs, no empty tokens), `charSplit`
is `str.split(sep)` for a one-character separator, `joinWith` is
`sep.join(...)` and `containsSub` is the `in` substring test. -/

def dropWhileWS (l : List Char) : List Char := l.dropWhile Char.isWhitespace

def trimChars (l : List Char) : List Char :=
  ((dropWhileWS l).reverse.dropWhile Char.isWhitespace).reverse

def pyStrip (s : String) : String := String.mk (trimChars s.data)

def splitWSChars : List Char → List Char → List String
  | [], acc => if acc.isEmpty then [] else [String.mk acc.reverse]
  | c :: rest, acc =>
    if c.isWhitespace then
      if acc.isEmpty then splitWSChars rest [] else String.mk acc.reverse :: splitWSChars rest []
    else splitWSChars rest (c :: acc)

/-- Python `str.split()` with no argument: split on runs of whitespace,
producing no empty tokens. -/
def pySplitWS (s : String) : List String := splitWSChars s.data []

def charSplitAux (sep : Char) : List Char → List Char → List String
  | [], acc => [String.mk acc.reverse]
  | c :: rest, acc =>
    if c = sep then String.mk acc.reverse :: charSplitAux sep rest []
    else charSplitAux sep rest (c :: acc)

/-- Python `str.split(sep)` for a single-character separator. -/
def charSplit (sep : Char) (s : String) : List String := charSplitAux sep s.data []

def joinWith (sep : String) : List String → String
  | [] => ""
  | [x] => x
  | x :: rest => x ++ sep ++ joinWith sep rest

def pyStartsWith (s pre : String) : Bool := pre.data.isPrefixOf s.data

def containsSubChars (hay needle : List Char) : Bool :=
  needle.isPrefixOf hay ||
    match hay with
    | [] => false
    | _ :: t => containsSubChars t needle

/-- Python `needle in hay` substring test. -/
def containsSub (hay needle : String) : Bool := containsSubChars hay.data needle.data

def digitVal (c : Char) : Option Nat :=
  if '0' ≤ c ∧ c ≤ '9' then some (c.toNat - '0'.toNat) else none

def parseDigits : List Char → Nat → Option Nat
  | [], acc => some acc
  | c :: rest, acc =>
    match digitVal c with
    | some d => parseDigits rest (acc * 10 + d)
    | none => none

/-- Python `int(str)`: optional surrounding whitespace, optional sign, a
nonempty digit run.  (Underscore digit separators are not modelled; no
input in this development contains them.) -/
def pyParseInt (s : String) : Option Int :=
  match trimChars s.data with
  | [] => none
  | '-' :: rest =>
    if rest.isEmpty then none else (parseDigits rest 0).map (fun n => -(n : Int))
  | '+' :: rest =>
    if rest.isEmpty then none else (parseDigits rest 0).map (fun n => (n : Int))
  | l => (parseDigits l 0).map (fun n => (n : Int))

def natToDigitsAux : Nat → Nat → List Char
  | _, 0 => []
  | n, fuel + 1 =>
    if n < 10 then [Char.ofNat ('0'.toNat + n)]
    else natToDigitsAux (n / 10) fuel ++ [Char.ofNat ('0'.toNat + n % 10)]

/-- Decimal rendering of a natural number (kernel-reducible). -/
def natToStr (n : Nat) : String := String.mk (natToDigitsAux n (n + 1))

/-! ## `fnmatch.fnmatch`

Shell-glob matching as used by `repo_cleanup.py` via Python's `fnmatch`
module (POSIX case: no case folding).  `*` matches any sequence, `?` any
single character, `[...]`/`[!...]` a (negated) character set with `a-b`
ranges; an unterminated `[` matches a literal `[`.  The matcher carries a
fuel argument so that it is structurally recursive (and hence reduces in
the kernel); `fuel = |pattern| + |string| + 1` always suffices because
every recursive call strictly decreases `|pattern| + |string|`. -/

def bracketMem : List Char → Char → Bool
  | a :: '-' :: b :: rest, c =>
    (decide (a ≤ c) && decide (c ≤ b)) || bracketMem rest c
  | a :: rest, c => (a = c) || bracketMem rest c
  | [], _ => false

def bracketSpan : List Char → Option (List Char × List Char)
  | [] => none
  | ']' :: t => some ([], t)
  | c :: t =>
    match bracketSpan t with
    | some (b, r) => some (c :: b, r)
    | none => none

/-- Parse a glob character class directly after `[`: optional `!`, then a
body in which a leading `]` is literal, up to the closing `]`.  Returns
`(negated, body, rest-of-pattern)`, or `none` when unterminated. -/
def splitBracket (cs : List Char) : Option (Bool × List Char × List Char) :=
  match cs with
  | '!' :: rest =>
    (match rest with
     | ']' :: t => (bracketSpan t).map (fun br => (true, ']' :: br.1, br.2))
     | _ => (bracketSpan rest).map (fun br => (true, br.1, br.2)))
  | ']' :: t => (bracketSpan t).map (fun br => (false, ']' :: br.1, br.2))
  | _ => (bracketSpan cs).map (fun br => (false, br.1, br.2))

def fnGo : Nat → List Char → List Char → Bool
  | 0, _, _ => false
  | _ + 1, [], s => s.isEmpty
  | f + 1, '*' :: ps, s =>
    fnGo f ps s ||
      (match s with
       | [] => false
       | _ :: t => fnGo f ('*' :: ps) t)
  | f + 1, '?' :: ps, s =>
    (match s with
     | [] => false
     | _ :: t => fnGo f ps t)
  | f + 1, '[' :: ps, s =>
    (match splitBracket ps with
     | some (neg, body, rest) =>
       (match s with
        | [] => false
        | c :: t => (if neg then !(bracketMem body c) else bracketMem body c) && fnGo f rest t)
     | none =>
       (match s with
        | [] => false
        | c :: t => (c = '[') && fnGo f ps t))
  | f + 1, p :: ps, s =>
    (match s with
     | [] => false
     | c :: t => (p = c) && fnGo f ps t)

/-- Python `fnmatch.fnmatch(name, pat)` on a POSIX system. -/
def fnmatch (name pat : String) : Bool :=
  fnGo (pat.data.length + name.data.length + 1) pat.data name.data

/-! ## Tool B: `scripts/clone_bitbucket_projects.py`

The git command-line tool is an external collaborator: it is modelled as an
oracle `GitEnv` mapping a command line (run in the repository's working
directory) to its `CompletedProcess`.  Every helper returns its value
together with a `Trace`, the list of commands it issued, so that theorems
can speak about which subprocesses were (not) run.  An `Option`-valued
result models a Python exception escaping the helper. -/

namespace CloneBB

structure CompletedProcess where
  returncode : Int
  stdout : String
  stderr : String
deriving DecidableEq

structure GitEnv where
  exec : List String → CompletedProcess

abbrev Trace := List (List String)

/-- `run(cmd, cwd, check)` from the source (`subprocess.run(..., check=check,
capture_output=True, text=True)`).  `none` models the `CalledProcessError`
raised when `check` is set and the exit code is non-zero. -/
def run (env : GitEnv) (cmd : List String) (check : Bool) : Option CompletedProcess × Trace :=
  (if check ∧ (env.exec cmd).returncode ≠ 0 then none else some (env.exec cmd), [cmd])

/-- Every status/inspection helper in the source calls `run` leaving `check`
at its default `False`, so the completed process is always available;
`runNC` is that total specialisation. -/
def runNC (env : GitEnv) (cmd : List String) : CompletedProcess := env.exec cmd

def showRefCmd (branch : String) : List String :=
  ["git", "show-ref", "--verify", "refs/heads/" ++ branch]

def branch_exists (env : GitEnv) (branch : String) : Bool × Trace :=
  ((runNC env (showRefCmd branch)).returncode == 0, [showRefCmd branch])

def lsRemoteHeadsCmd (branch remote : String) : List String :=
  ["git", "ls-remote", "--heads", remote, branch]

def remote_branch_exists (env : GitEnv) (branch remote : String) : Bool × Trace :=
  (pyStrip (runNC env (lsRemoteHeadsCmd branch remote)).stdout ≠ "", [lsRemoteHeadsCmd branch remote])

def revParseCmd : List String := ["git", "rev-parse", "--abbrev-ref", "HEAD"]

def current_branch (env : GitEnv) : String × Trace :=
  (pyStrip (runNC env revParseCmd).stdout, [revParseCmd])

def revListCmd (local_ref remote_ref : String) : List String :=
  ["git", "rev-list", "--left-right", "--count", local_ref ++ "..." ++ remote_ref]

/-- `ahead_behind`: on non-zero exit or empty output it returns `(0, 0)`;
otherwise it unpacks and parses the two counts (a `none` result models the
`ValueError` Python would raise on malformed output). -/
def ahead_behind (env : GitEnv) (local_ref remote_ref : String) : Option (Int × Int) × Trace :=
  (if (runNC env (revListCmd local_ref remote_ref)).returncode ≠ 0 ∨
      pyStrip (runNC env (revListCmd local_ref remote_ref)).stdout = "" then
     some (0, 0)
   else
     match pySplitWS (pyStrip (runNC env (revListCmd local_ref remote_ref)).stdout) with
     | [lft, rgt] =>
       match pyParseInt lft, pyParseInt rgt with
       | some a, some b => some (a, b)
       | _, _ => none
     | _ => none,
   [revListCmd local_ref remote_ref])

def forEachRefCmd : List String :=
  ["git", "for-each-ref", "refs/heads", "--format=%(refname:short) %(upstream:short)"]

def aheadLoop (env : GitEnv) : List String → Option (List (String × Int)) × Trace
  | [] => (some [], [])
  | line :: rest =>
    if pyStrip line = "" then aheadLoop env rest
    else
      match pySplitWS line with
      | lcl :: upstream :: _ =>
        if upstream = "" then aheadLoop env rest
        else
          let abr := ahead_behind env lcl upstream
          match abr.1 with
          | none => (none, abr.2)
          | some ab =>
            let rst := aheadLoop env rest
            match rst.1 with
            | none => (none, abr.2 ++ rst.2)
            | some acc =>
              (some (if 0 < ab.1 then (lcl, ab.1) :: acc else acc), abr.2 ++ rst.2)
      | _ => aheadLoop env rest

def list_ahead_branches (env : GitEnv) : Option (List (String × Int)) × Trace :=
  let res := runNC env forEachRefCmd
  let rec0 := aheadLoop env (charSplit '\n' res.stdout)
  (rec0.1, forEachRefCmd :: rec0.2)

def statusCmd : List String := ["git", "status", "--porcelain"]

def is_dirty (env : GitEnv) : Bool × Trace :=
  (pyStrip (runNC env statusCmd).stdout ≠ "", [statusCmd])

def lsRemoteHeadCmd (remote : String) : List String :=
  ["git", "ls-remote", "--symref", remote, "HEAD"]

/-- For a symref output line, the source computes
`line.split()[1] if "\t" not in line else line.split("\t")[0].split()[-1]`;
`none` models the IndexError on degenerate lines. -/
def symrefOfLine (line : String) : Option String :=
  if containsSub line "\t" then
    match charSplit '\t' line with
    | first :: _ => (pySplitWS first).getLast?
    | [] => none
  else (pySplitWS line).get? 1

/-- Python `ref.split("/", 2)[-1]`. -/
def splitSlashMax2Last (s : String) : String :=
  match charSplit '/' s with
  | a :: b :: c :: rest =>
    have _ := a; have _ := b
    joinWith "/" (c :: rest)
  | parts => parts.getLastD s

/-- One pass over the `ls-remote --symref` output lines: `some (some b)` is
an early return of branch `b`, `some none` falls through to the
`main`/`master` checks, `none` is a raised IndexError. -/
def scanSymrefLines : List String → Option (Option String)
  | [] => some none
  | line :: rest =>
    if pyStartsWith line "ref:" ∧ containsSub line "HEAD" then
      match symrefOfLine line with
      | none => none
      | some ref =>
        if pyStartsWith ref "refs/heads/" then some (some (splitSlashMax2Last ref))
        else scanSymrefLines rest
    else scanSymrefLines rest

def detect_default_branch (env : GitEnv) (remote : String) : Option (Option String) × Trace :=
  match scanSymrefLines (charSplit '\n' (runNC env (lsRemoteHeadCmd remote)).stdout) with
  | none => (none, [lsRemoteHeadCmd remote])
  | some (some b) => (some (some b), [lsRemoteHeadCmd remote])
  | some none =>
    let m1 := remote_branch_exists env "main" remote
    if m1.1 then (some (some "main"), lsRemoteHeadCmd remote :: m1.2)
    else
      let m2 := remote_branch_exists env "master" remote
      if m2.1 then (some (some "master"), lsRemoteHeadCmd remote :: m1.2 ++ m2.2)
      else (some none, lsRemoteHeadCmd remote :: m1.2 ++ m2.2)

def fetchTrackCmd (branch remote : String) : List String :=
  ["git", "fetch", "-q", remote,
   "refs/heads/" ++ branch ++ ":refs/remotes/" ++ remote ++ "/" ++ branch]

/-- `update_remote_branch`: fetch only the branch's remote-tracking ref;
the result is ignored by the source, so only the trace remains. -/
def update_remote_branch (env : GitEnv) (branch remote : String) : Trace :=
  (run env (fetchTrackCmd branch remote) false).2

def pullFFCmd (branch : String) : List String := ["git", "pull", "--ff-only", "origin", branch]

def fetchLocalCmd (branch : String) : List String :=
  ["git", "fetch", "-q", "origin", branch ++ ":" ++ branch]

/-- Python `a or b` for strings: the first operand if non-empty. -/
def pyOrStr (a b : String) : String := if a ≠ "" then a else b

def ffErrText (env : GitEnv) (cmd : List String) : String :=
  pyOrStr (pyStrip (runNC env cmd).stderr) (pyStrip (runNC env cmd).stdout)

/-- `fast_forward_default(repo_dir, default_branch, dry_run)`: refresh the
remote-tracking ref, compare ahead/behind, and fast-forward only when
strictly behind.  Returns the `(action, error)` pair and the trace of
issued commands. -/
def fast_forward_default (env : GitEnv) (default_branch : String) (dry_run : Bool) :
    Option (String × Option String) × Trace :=
  let t1 := update_remote_branch env default_branch "origin"
  let cb := current_branch env
  let ab := ahead_behind env default_branch ("origin/" ++ default_branch)
  let t0 := t1 ++ cb.2 ++ ab.2
  match ab.1 with
  | none => (none, t0)
  | some c =>
    if 0 < c.1 ∧ c.2 = 0 then (some ("skipped", none), t0)
    else if 0 < c.1 ∧ 0 < c.2 then (some ("skipped", none), t0)
    else if c.1 = 0 ∧ c.2 = 0 then (some ("up-to-date", none), t0)
    else if dry_run then (some ("pulled", none), t0)
    else if cb.1 = default_branch then
      if (runNC env (pullFFCmd default_branch)).returncode ≠ 0 then
        (some ("skipped", some (ffErrText env (pullFFCmd default_branch))),
         t0 ++ [pullFFCmd default_branch])
      else (some ("pulled", none), t0 ++ [pullFFCmd default_branch])
    else
      if (runNC env (fetchLocalCmd default_branch)).returncode ≠ 0 then
        (some ("skipped", some (ffErrText env (fetchLocalCmd default_branch))),
         t0 ++ [fetchLocalCmd default_branch])
      else (some ("pulled", none), t0 ++ [fetchLocalCmd default_branch])

structure RepoSummary where
  name : Option String
  slug : String
  path : String
  default_branch : Option String
  current_branch : Option String
  ahead_main : Int
  behind_main : Int
  dirty : Bool
  ahead_branches : List (String × Int)
  action : Option String
  error : Option String
deriving DecidableEq

/-- `summarize_repo(repo, dest_dir, perform_pull, dry_run)`.  The repository
dict contributes `name` and `slug`; `path_exists` abstracts
`path.exists()`.  `none` models a Python exception escaping the call. -/
def summarize_repo (name : Option String) (slug dest : String) (path_exists : Bool)
    (env : GitEnv) (perform_pull dry_run : Bool) : Option RepoSummary × Trace :=
  let path := dest ++ "/" ++ slug
  let base : RepoSummary := ⟨name, slug, path, none, none, 0, 0, false, [], none, none⟩
  if path_exists = false then (some { base with action := some "to-clone" }, [])
  else
    let det := detect_default_branch env "origin"
    match det.1 with
    | none => (none, det.2)
    | some defaultOpt =>
      let cb := current_branch env
      let s1 := { base with default_branch := defaultOpt, current_branch := some cb.1 }
      match defaultOpt with
      | some dflt =>
        let t3 := if perform_pull then update_remote_branch env dflt "origin" else []
        let bex := branch_exists env dflt
        let abv := if bex.1 then ahead_behind env dflt ("origin/" ++ dflt)
                   else (some ((0 : Int), (0 : Int)), [])
        match abv.1 with
        | none => (none, det.2 ++ cb.2 ++ t3 ++ bex.2 ++ abv.2)
        | some ab =>
          let s2 := { s1 with ahead_main := ab.1, behind_main := ab.2 }
          let step : Option RepoSummary × Trace :=
            if perform_pull then
              match fast_forward_default env dflt dry_run with
              | (none, t6) => (none, t6)
              | (some actErr, t6) => (some { s2 with action := some actErr.1, error := actErr.2 }, t6)
            else (some { s2 with action := some "checked" }, [])
          match step with
          | (none, t6) => (none, det.2 ++ cb.2 ++ t3 ++ bex.2 ++ abv.2 ++ t6)
          | (some s3, t6) =>
            let dty := is_dirty env
            let abr := list_ahead_branches env
            match abr.1 with
            | none => (none, det.2 ++ cb.2 ++ t3 ++ bex.2 ++ abv.2 ++ t6 ++ dty.2 ++ abr.2)
            | some lst =>
              (some { s3 with dirty := dty.1, ahead_branches := lst },
               det.2 ++ cb.2 ++ t3 ++ bex.2 ++ abv.2 ++ t6 ++ dty.2 ++ abr.2)
      | none =>
        let s2 := { s1 with action := some "no-default-branch" }
        let dty := is_dirty env
        let abr := list_ahead_branches env
        match abr.1 with
        | none => (none, det.2 ++ cb.2 ++ dty.2 ++ abr.2)
        | some lst =>
          (some { s2 with dirty := dty.1, ahead_branches := lst },
           det.2 ++ cb.2 ++ dty.2 ++ abr.2)

/-- `get_auth_context` reads the environment; a variable counts as set
only when present and non-empty (Python truthiness). -/
def envTruthy (env : String → Option String) (nm : String) : Option String :=
  match env nm with
  | some v => if v = "" then none else some v
  | none => none

/-- `get_auth_context()`: `(basic-auth pair or None, extra headers)`, or
`none` for the `sys.exit(2)` taken when no credential scheme is set. -/
def get_auth_context (env : String → Option String) :
    Option (Option (String × String) × List (String × String)) :=
  match envTruthy env "BITBUCKET_USERNAME", envTruthy env "BITBUCKET_API_TOKEN" with
  | some u, some t => some (some (u, t), [])
  | _, _ =>
    match envTruthy env "BITBUCKET_ACCESS_TOKEN" with
    | some tok => some (none, [("Authorization", "Bearer " ++ tok)])
    | none =>
      match envTruthy env "BB_USERNAME", envTruthy env "BB_APP_PASSWORD" with
      | some u, some p => some (some (u, p), [])
      | _, _ => none

/-- The trace of the inspection part of `fast_forward_default`: the
remote-tracking refresh, the current-branch query, and the rev-list
comparison. -/
def ffInspectTrace (br : String) : Trace :=
  [fetchTrackCmd br "origin", revParseCmd, revListCmd br ("origin/" ++ br)]

/-- Oracle whose every command fails with exit code 1 and empty output. -/
def envAllFail : GitEnv := ⟨fun _ => ⟨1, "", ""⟩⟩

/-- Oracle for a repository that is 2 commits ahead of origin/main. -/
def envAhead2 : GitEnv :=
  ⟨fun cmd =>
    if cmd = revListCmd "main" ("origin/" ++ "main") then ⟨0, "2\t0\n", ""⟩
    else if cmd = revParseCmd then ⟨0, "main\n", ""⟩
    else ⟨0, "", ""⟩⟩

/-- Oracle for a repository on branch `main`, default branch `main`
detected via the remote symref, clean and with no unpushed branches. -/
def envChecked : GitEnv :=
  ⟨fun cmd =>
    if cmd = lsRemoteHeadCmd "origin" then
      ⟨0, "ref: refs/heads/main\tHEAD\nabc123\tHEAD\n", ""⟩
    else if cmd = revParseCmd then ⟨0, "main\n", ""⟩
    else if cmd = showRefCmd "main" then ⟨0, "abc123 refs/heads/main\n", ""⟩
    else ⟨0, "", ""⟩⟩

/-- Environment-variable map with all three credential schemes set. -/
def envVarsAll : String → Option String := fun nm =>
  if nm = "BITBUCKET_USERNAME" then some "alice"
  else if nm = "BITBUCKET_API_TOKEN" then some "api-tok"
  else if nm = "BITBUCKET_ACCESS_TOKEN" then some "bearer-tok"
  else if nm = "BB_USERNAME" then some "bob"
  else if nm = "BB_APP_PASSWORD" then some "app-pw"
  else none

end CloneBB

/-! ## Tool A: `repo_cleanup.py`

The filesystem below the scan root is an external collaborator: it is
modelled as a tree (`FSE`/`FSL`, a mutual inductive so that the traversal
is structurally recursive and kernel-reducible).  Paths are lists of
components; `pathStr` renders them the way `str(Path)` does. -/

namespace RepoCleanup

/-- A rule `(category, risk[safe|risky], type[dir|file], pattern-on-basename)`. -/
structure Rule where
  cat : String
  risk : String
  kind : String
  pat : String
deriving DecidableEq

/-- The static `RULES` table, transcribed verbatim. -/
def RULES : List Rule := [
  ⟨"Terraform", "safe",  "dir",  ".terraform"⟩,
  ⟨"Terraform", "safe",  "dir",  ".terragrunt-cache"⟩,
  ⟨"Terraform", "safe",  "file", "*.tfplan"⟩,
  ⟨"Terraform", "safe",  "file", "crash.log"⟩,
  ⟨"Terraform", "safe",  "file", "crash.*.log"⟩,
  ⟨"Node/JS",   "safe",  "dir",  "node_modules"⟩,
  ⟨"Node/JS",   "safe",  "dir",  "dist"⟩,
  ⟨"Node/JS",   "safe",  "dir",  "build"⟩,
  ⟨"Node/JS",   "safe",  "dir",  ".next"⟩,
  ⟨"Node/JS",   "safe",  "dir",  ".nuxt"⟩,
  ⟨"Node/JS",   "safe",  "dir",  ".turbo"⟩,
  ⟨"Node/JS",   "safe",  "dir",  ".parcel-cache"⟩,
  ⟨"Node/JS",   "safe",  "dir",  "coverage"⟩,
  ⟨"Python",    "safe",  "dir",  "__pycache__"⟩,
  ⟨"Python",    "safe",  "dir",  ".pytest_cache"⟩,
  ⟨"Python",    "safe",  "dir",  ".mypy_cache"⟩,
  ⟨"Python",    "safe",  "dir",  ".ruff_cache"⟩,
  ⟨"Python",    "safe",  "dir",  ".ipynb_checkpoints"⟩,
  ⟨"Python",    "safe",  "dir",  ".tox"⟩,
  ⟨"Python",    "safe",  "file", "*.pyc"⟩,
  ⟨"Python",    "safe",  "file", "*.pyo"⟩,
  ⟨"Build",     "safe",  "dir",  "target"⟩,
  ⟨"Build",     "safe",  "dir",  ".gradle"⟩,
  ⟨"Misc",      "safe",  "file", ".DS_Store"⟩,
  ⟨"Misc",      "safe",  "file", "Thumbs.db"⟩,
  ⟨"Misc",      "safe",  "file", "*.swp"⟩,
  ⟨"Misc",      "safe",  "file", "*.swo"⟩,
  ⟨"Dev env",   "risky", "dir",  "venv"⟩,
  ⟨"Dev env",   "risky", "dir",  ".venv"⟩,
  ⟨"Dev env",   "risky", "dir",  "env"⟩,
  ⟨"Dev env",   "risky", "dir",  ".idea"⟩,
  ⟨"Dev env",   "risky", "dir",  ".vscode"⟩,
  ⟨"Dev env",   "risky", "dir",  ".devcontainer"⟩]

/-- The value of the float `s` in `human_size`: it is always exactly
`n / 1024^k`, which a double represents exactly (for `n < 2^53`, far
beyond any byte count), so it is modelled as the exact fraction with
denominator `1024^k`. -/
structure DyFrac where
  num : Nat
  den : Nat
deriving DecidableEq

/-- `s < 1024` on the exact value. -/
def dyLt1024 (s : DyFrac) : Bool := s.num < 1024 * s.den

/-- `s /= 1024` on the exact value. -/
def dyDiv1024 (s : DyFrac) : DyFrac := ⟨s.num, s.den * 1024⟩

/-- Round `a / b` (with `b > 0`) to the nearest integer, ties to even:
the rounding CPython's `format` applies to the exact binary value. -/
def roundHalfEvenNat (a b : Nat) : Nat :=
  let f := a / b
  let r := a % b
  if 2 * r < b then f
  else if b < 2 * r then f + 1
  else if f % 2 = 0 then f else f + 1

/-- Python `f"{s:.1f}"` on the exact non-negative value of `s`. -/
def fmt1 (s : DyFrac) : String :=
  let t := roundHalfEvenNat (10 * s.num) s.den
  natToStr (t / 10) ++ "." ++ natToStr (t % 10)

def hsUnits : List String := ["B", "KB", "MB", "GB", "TB"]

/-- The unit loop of `human_size`: return at the first unit where the
value is below 1024, or unconditionally at the last unit. -/
def hsGo : DyFrac → List String → String
  | _, [] => ""
  | s, [u] => fmt1 s ++ " " ++ u
  | s, u :: us => if dyLt1024 s then fmt1 s ++ " " ++ u else hsGo (dyDiv1024 s) us

def human_size (n : Nat) : String := hsGo ⟨n, 1⟩ hsUnits

/-- `build_rule_index(include_risky, only_cats)`: keep a rule unless a
non-empty category filter omits its category or it is risky without
`include_risky`; then split by entry kind. -/
def build_rule_index (include_risky : Bool) (only_cats : List String) : List Rule × List Rule :=
  let selected := RULES.filter (fun r =>
    !(!only_cats.isEmpty && !only_cats.contains r.cat) &&
    !(r.risk == "risky" && !include_risky))
  (selected.filter (fun r => r.kind == "dir"), selected.filter (fun r => r.kind == "file"))

/-- A path as its list of components; `str(Path)` joins them with `/`. -/
abbrev PathC := List String

def pathStr (p : PathC) : String := joinWith "/" p

/-- `Path.name`: the final component. -/
def pathName (p : PathC) : String := p.getLastD ""

/-- `Path.parents` as the strict prefixes of the component list (ordering
of the Python property is irrelevant: only membership is ever used). -/
def parentsOf (p : PathC) : List PathC := (List.range p.length).map (fun k => p.take k)

/-- `should_exclude_by_glob(path, exclude_globs)`: drop a candidate whose
base name or full path string matches any exclude glob. -/
def should_exclude_by_glob (p : PathC) (exclude_globs : List String) : Bool :=
  if exclude_globs.isEmpty then false
  else exclude_globs.any (fun g => fnmatch (pathName p) g || fnmatch (pathStr p) g)

mutual
/-- A filesystem entry: a file with a byte size, or a directory. -/
inductive FSE where
  | file (name : String) (size : Nat)
  | dir (name : String) (children : FSL)
deriving DecidableEq
/-- The ordered children of a directory (a mutual list so that the
traversal below is structurally recursive). -/
inductive FSL where
  | nil
  | cons (e : FSE) (rest : FSL)
deriving DecidableEq
end

def FSE.name : FSE → String
  | .file n _ => n
  | .dir n _ => n

def FSL.toList : FSL → List FSE
  | .nil => []
  | .cons e rest => e :: rest.toList

/-- The `dirnames` of a directory level, in listing order. -/
def dirNames (l : FSL) : List String :=
  l.toList.filterMap (fun e => match e with | .dir n _ => some n | _ => none)

/-- The `filenames` of a directory level, in listing order. -/
def fileNames (l : FSL) : List String :=
  l.toList.filterMap (fun e => match e with | .file n _ => some n | _ => none)

def entryNames (l : FSL) : List String := l.toList.map FSE.name

def nodupStr : List String → Bool
  | [] => true
  | x :: xs => !xs.contains x && nodupStr xs

/-- Well-formedness of the children below one directory: sibling names are
distinct at every level (true of any real filesystem). -/
def wfSub : FSL → Bool
  | .nil => true
  | .cons (.file _ _) rest => wfSub rest
  | .cons (.dir _ cs) rest => (nodupStr (entryNames cs) && wfSub cs) && wfSub rest

/-- Well-formedness of a whole tree: sibling names distinct at every level. -/
def wfForest (es : FSL) : Bool := nodupStr (entryNames es) && wfSub es

def findNamed (es : FSL) (n : String) : Option FSE :=
  es.toList.find? (fun e => e.name == n)

/-- Resolve a relative component path in a tree (directories on the way,
any entry at the end). -/
def findEntry : FSL → List String → Option FSE
  | _, [] => none
  | es, [n] => findNamed es n
  | es, n :: rest =>
    match findNamed es n with
    | some (.dir _ cs) => findEntry cs rest
    | _ => none

def forestFileSize : FSL → Nat
  | .nil => 0
  | .cons (.file _ s) rest => s + forestFileSize rest
  | .cons (.dir _ cs) rest => forestFileSize cs + forestFileSize rest

def entrySize : FSE → Nat
  | .file _ s => s
  | .dir _ cs => forestFileSize cs

/-- `path_size(p)`: a file's byte length, a directory's recursive sum of
contained file sizes; 0 when the path cannot be resolved (the source's
exception fallback).  Unreadable entries do not arise in the tree model. -/
def path_size (tree : FSL) (root p : PathC) : Nat :=
  if root.isPrefixOf p then
    match findEntry tree (p.drop root.length) with
    | some e => entrySize e
    | none => 0
  else 0

/-- The mutable state of `scan`: the category buckets (`matches`, an
insertion-ordered dict) and the `chosen_dirs` list. -/
structure ScanSt where
  matchesDict : List (String × List PathC)
  chosenDirs : List PathC
deriving DecidableEq

/-- `matches.setdefault(cat, …)`: insert an empty bucket at the end if the
category is not yet a key. -/
def setdefaultBucket (m : List (String × List PathC)) (cat : String) :
    List (String × List PathC) :=
  if m.any (fun kv => kv.1 == cat) then m else m ++ [(cat, [])]

/-- Append an item to the bucket of `cat` (keys are unique, established by
`setdefaultBucket`). -/
def appendToBucket (m : List (String × List PathC)) (cat : String) (p : PathC) :
    List (String × List PathC) :=
  m.map (fun kv => if kv.1 == cat then (kv.1, kv.2 ++ [p]) else kv)

/-- `add_item(cat, p)`: drop excluded paths; create the bucket; drop the
item (after bucket creation, as the source does) when an ancestor is
already a chosen directory; otherwise append. -/
def add_item (excl : List String) (st : ScanSt) (cat : String) (p : PathC) : ScanSt :=
  if should_exclude_by_glob p excl then st
  else
    let m1 := setdefaultBucket st.matchesDict cat
    if (parentsOf p).any (fun q => st.chosenDirs.contains q) then { st with matchesDict := m1 }
    else { st with matchesDict := appendToBucket m1 cat p }

/-- First rule in table order whose pattern matches the base name. -/
def firstMatchRule (rules : List Rule) (nm : String) : Option Rule :=
  rules.find? (fun r => fnmatch nm r.pat)

/-- The directory-rule loop of one `os.walk` step: match each subdirectory
name against the directory rules, record matches and chosen dirs, and
collect `to_prune`. -/
def matchDirsPhase (dr : List Rule) (excl : List String) (dp : PathC) :
    List String → ScanSt → ScanSt × List String
  | [], st => (st, [])
  | d :: ds, st =>
    match firstMatchRule dr d with
    | some r =>
      let st1 := add_item excl st r.cat (dp ++ [d])
      let st2 : ScanSt := { st1 with chosenDirs := st1.chosenDirs ++ [dp ++ [d]] }
      let rec0 := matchDirsPhase dr excl dp ds st2
      (rec0.1, d :: rec0.2)
    | none => matchDirsPhase dr excl dp ds st

/-- The file-rule loop of one `os.walk` step. -/
def matchFilesPhase (fr : List Rule) (excl : List String) (dp : PathC) :
    List String → ScanSt → ScanSt
  | [], st => st
  | f :: fs, st =>
    match firstMatchRule fr f with
    | some r => matchFilesPhase fr excl dp fs (add_item excl st r.cat (dp ++ [f]))
    | none => matchFilesPhase fr excl dp fs st

/-- One `os.walk` step at directory `dp` with children `es`: remove `.git`
from `dirnames`, run the directory-rule loop (collecting `to_prune`), then
the file-rule loop. -/
def scanLevel (dr fr : List Rule) (excl : List String) (dp : PathC) (es : FSL) (st : ScanSt) :
    ScanSt × List String :=
  let dirnames := (dirNames es).filter (fun d => d ≠ ".git")
  let ph := matchDirsPhase dr excl dp dirnames st
  (matchFilesPhase fr excl dp (fileNames es) ph.1, ph.2)

/-- The descent of `os.walk` after a step: recurse, in listing order, into
each subdirectory that is not `.git` and was not pruned, performing that
directory's step and its own descent. -/
def scanRest (dr fr : List Rule) (excl : List String) :
    PathC → List String → FSL → ScanSt → ScanSt
  | _, _, .nil, st => st
  | dp, pruned, .cons (.file _ _) rest, st => scanRest dr fr excl dp pruned rest st
  | dp, pruned, .cons (.dir n cs) rest, st =>
    let st2 :=
      if n = ".git" ∨ pruned.contains n then st
      else
        let lv := scanLevel dr fr excl (dp ++ [n]) cs st
        scanRest dr fr excl (dp ++ [n]) lv.2 cs lv.1
    scanRest dr fr excl dp pruned rest st2

/-- The full `os.walk` matching pass rooted at `dp`. -/
def scanTree (dr fr : List Rule) (excl : List String) (dp : PathC) (es : FSL) (st : ScanSt) :
    ScanSt :=
  let lv := scanLevel dr fr excl dp es st
  scanRest dr fr excl dp lv.2 es lv.1

def dedupAcc (seen : List PathC) : List PathC → List PathC
  | [] => []
  | p :: rest => if seen.contains p then dedupAcc seen rest else p :: dedupAcc (seen ++ [p]) rest

/-- Order-preserving deduplication (the `uniq`/`seen` loop of `scan`). -/
def dedupKeepFirst (l : List PathC) : List PathC := dedupAcc [] l

/-- `scan(root, include_risky, only_cats, exclude_globs)` over the tree of
children of `root`: the walk followed by per-category deduplication and
size computation.  Result: `(category, items, aggregate size)` in bucket
order. -/
def scan (root : PathC) (tree : FSL) (include_risky : Bool)
    (only_cats exclude_globs : List String) : List (String × List PathC × Nat) :=
  let idx := build_rule_index include_risky only_cats
  let st := scanTree idx.1 idx.2 exclude_globs root tree ⟨[], []⟩
  st.matchesDict.map (fun kv =>
    let uniq := dedupKeepFirst kv.2
    (kv.1, uniq, (uniq.map (fun p => path_size tree root p)).sum))

/-- The order in which `delete_all` attempts removals: flatten the match
set, deduplicate, and stably sort by descending length of the rendered
path string (`sorted(set(...), key=lambda p: len(str(p)), reverse=True)`);
the deletion loop then processes this list front to back. -/
def delete_all_order (ms : List (String × List PathC × Nat)) : List PathC :=
  List.insertionSort (fun p q => (pathStr q).length ≤ (pathStr p).length)
    (dedupKeepFirst (ms.flatMap (fun kv => kv.2.1)))

/-- Proper-ancestor test on component paths: a strict prefix. -/
def properAncestor (q p : PathC) : Bool := q.isPrefixOf p && q ≠ p

/-- Position of the first occurrence of `p` (the list's length when
absent); used to state processing-order properties. -/
def idxOfP (p : PathC) : List PathC → Nat
  | [] => 0
  | q :: rest => if q = p then 0 else idxOfP p rest + 1

/-- Number of occurrences of `p` in a list of paths; used to state
exactly-once properties. -/
def cntP (p : PathC) : List PathC → Nat
  | [] => 0
  | q :: rest => (if q = p then 1 else 0) + cntP p rest

/-- The bucket of a category in the `matches` dict (keys are unique;
empty when absent). -/
def bucketOf (m : List (String × List PathC)) (cat : String) : List PathC :=
  match m.find? (fun kv => kv.1 == cat) with
  | some kv => kv.2
  | none => []

/-- `p` is recorded under `cat` in the scan state. -/
def ItemIn (st : ScanSt) (cat : String) (p : PathC) : Prop :=
  p ∈ bucketOf st.matchesDict cat

/-- Characterisation of a directory chosen while scanning the subtree of
`dp` with children `es`: a directory entry strictly below `dp`. -/
def NewChosen (dp : PathC) (es : FSL) (c : PathC) : Prop :=
  ∃ s n cs, c = dp ++ s ∧ s ≠ [] ∧ findEntry es s = some (.dir n cs)

/-- Characterisation of an item recorded while scanning the subtree of
`dp` with children `es`, relative to the resulting state `R`: an actual
entry strictly below `dp`, not glob-excluded, whose base name matched the
first applicable rule of its kind (which determines the category), and —
for a directory — also recorded in `chosen_dirs`. -/
def NewItem (dr fr : List Rule) (excl : List String) (dp : PathC) (es : FSL)
    (R : ScanSt) (cat : String) (p : PathC) : Prop :=
  ∃ s e, p = dp ++ s ∧ s ≠ [] ∧ findEntry es s = some e ∧
    should_exclude_by_glob p excl = false ∧
    (match e with
     | .dir _ _ => (∃ r, firstMatchRule dr e.name = some r ∧ r.cat = cat) ∧ p ∈ R.chosenDirs
     | .file _ _ => ∃ r, firstMatchRule fr e.name = some r ∧ r.cat = cat)

/-- The descent relation of the scan: `ReachDown dr es s es'` holds when
the walk starting at a directory with children `es` reaches, along the
component path `s`, a directory with children `es'` — descending only
through subdirectories that are not `.git` and match no selected
directory rule (those are never pruned). -/
inductive ReachDown (dr : List Rule) : FSL → List String → FSL → Prop where
  | here (es : FSL) : ReachDown dr es [] es
  | step {n : String} {cs es es' : FSL} {rest' : List String} :
      FSE.dir n cs ∈ es.toList → n ≠ ".git" → firstMatchRule dr n = none →
      ReachDown dr cs rest' es' → ReachDown dr es (n :: rest') es'

/-- Invariants of the state handed to the walk of one level's remaining
entries (`scanRest` at `dp`, pruned names `pruned`, remaining entries
`es`): chosen dirs never lie on or above `dp`, and anything already
recorded strictly below `dp` lies below a pruned name or below a name not
among the remaining entries; no recorded item lies strictly below a
chosen dir; bucket keys are unique. -/
structure LevelInv (dp : PathC) (pruned : List String) (es : FSL) (st : ScanSt) : Prop where
  hch1 : ∀ c ∈ st.chosenDirs, ¬ (c <+: dp)
  hch2 : ∀ c ∈ st.chosenDirs, ∀ m rest', c = dp ++ m :: rest' → m ∈ pruned ∨ m ∉ entryNames es
  hit : ∀ cat p, ItemIn st cat p → ∀ m rest', p = dp ++ m :: rest' →
      rest' = [] ∨ m ∈ pruned ∨ m ∉ entryNames es
  hnoanc : ∀ cat p, ItemIn st cat p → ∀ c ∈ st.chosenDirs, ¬ (c <+: p ∧ c ≠ p)
  hkeys : (st.matchesDict.map Prod.fst).Nodup

/-- Invariants of the state handed to the walk of a whole subtree
(`scanTree` at `dp`): nothing already chosen or recorded lies on, above
or strictly below `dp`. -/
structure TreeInv (dp : PathC) (st : ScanSt) : Prop where
  hch : ∀ c ∈ st.chosenDirs, ¬ (c <+: dp) ∧ ¬ (dp <+: c)
  hit : ∀ cat p, ItemIn st cat p → dp <+: p → p = dp
  hnoanc : ∀ cat p, ItemIn st cat p → ∀ c ∈ st.chosenDirs, ¬ (c <+: p ∧ c ≠ p)
  hkeys : (st.matchesDict.map Prod.fst).Nodup

/-- What one subtree walk adds: monotone growth; every new chosen dir is
an actual directory entry strictly below `dp`; every new item is an
actual entry strictly below `dp` of the `NewItem` shape; no recorded item
lies strictly below any chosen dir; keys stay unique. -/
structure ScanOut (dr fr : List Rule) (excl : List String) (dp : PathC) (es : FSL)
    (st R : ScanSt) : Prop where
  chosenMono : ∀ c ∈ st.chosenDirs, c ∈ R.chosenDirs
  itemMono : ∀ cat p, ItemIn st cat p → ItemIn R cat p
  chosenNew : ∀ c ∈ R.chosenDirs, c ∈ st.chosenDirs ∨ NewChosen dp es c
  itemNew : ∀ cat p, ItemIn R cat p → ItemIn st cat p ∨ NewItem dr fr excl dp es R cat p
  noanc : ∀ cat p, ItemIn R cat p → ∀ c ∈ R.chosenDirs, ¬ (c <+: p ∧ c ≠ p)
  keys : (R.matchesDict.map Prod.fst).Nodup

/-- The scan state after the full walk (the post-processing of `scan`
maps over its buckets). -/
def scanState (root : PathC) (tree : FSL) (include_risky : Bool)
    (only_cats exclude_globs : List String) : ScanSt :=
  scanTree (build_rule_index include_risky only_cats).1
    (build_rule_index include_risky only_cats).2 exclude_globs root tree ⟨[], []⟩

/-- A small concrete tree used by the witnesses: a project with a
`node_modules` directory (containing a file), a `src` directory and a
compiled Python file. -/
def sampleTree : FSL :=
  .cons (.dir "project"
    (.cons (.dir "node_modules" (.cons (.file "pkg.js" 10) .nil))
      (.cons (.dir "src" (.cons (.file "app.py" 5) .nil))
        (.cons (.file "app.pyc" 3) .nil))))
  .nil

/-- What the two matching phases of one level add (state `st2`, pruned
names `pruned`). -/
structure LevelOut (dr fr : List Rule) (excl : List String) (dp : PathC) (es : FSL)
    (st st2 : ScanSt) (pruned : List String) : Prop where
  chosenEq : st2.chosenDirs = st.chosenDirs ++ pruned.map (fun d => dp ++ [d])
  prunedIff : ∀ d, d ∈ pruned ↔
      d ∈ (dirNames es).filter (fun d => d ≠ ".git") ∧ firstMatchRule dr d ≠ none
  itemIff : ∀ cat p, ItemIn st2 cat p ↔ ItemIn st cat p ∨
      (∃ d r, d ∈ (dirNames es).filter (fun d => d ≠ ".git") ∧
        firstMatchRule dr d = some r ∧ r.cat = cat ∧ p = dp ++ [d] ∧
        should_exclude_by_glob (dp ++ [d]) excl = false) ∨
      (∃ f r, f ∈ fileNames es ∧ firstMatchRule fr f = some r ∧ r.cat = cat ∧
        p = dp ++ [f] ∧ should_exclude_by_glob (dp ++ [f]) excl = false)
  keys : (st2.matchesDict.map Prod.fst).Nodup

end RepoCleanup

/-! ## Theorems -/

example : fnmatch "foo.pyc" "*.pyc" = true := by decide
example : fnmatch "foo.py" "*.pyc" = false := by decide
example : fnmatch "crash.2024.log" "crash.*.log" = true := by decide
example : fnmatch "node_modules" "node_modules" = true := by decide
example : fnmatch "ab" "a[b-d]" = true := by decide
example : fnmatch "ae" "a[b-d]" = false := by decide
example : fnmatch "ab" "a[!b-d]" = false := by decide
example : pySplitWS "  2\t0\n" = ["2", "0"] := by decide
example : pyParseInt "42" = some 42 := by decide
example : pyParseInt "-7" = some (-7) := by decide
example : pyParseInt "x" = none := by decide

namespace CloneBB

theorem run_no_check (env : GitEnv) (cmd : List String) :
    run env cmd false = (some (runNC env cmd), [cmd]) := by
  simp [run, runNC]

/-- C9: `ahead_behind` never raises on a failed git inspection: the
rev-list subprocess is invoked through `run` with `check` disabled (so a
non-zero exit does not raise), and whenever it exits non-zero or produces
empty output the function returns `(0, 0)`. -/
theorem ahead_behind_failed_inspection (env : GitEnv) (lref rref : String)
    (h : (runNC env (revListCmd lref rref)).returncode ≠ 0 ∨
         pyStrip (runNC env (revListCmd lref rref)).stdout = "") :
    run env (revListCmd lref rref) false =
      (some (runNC env (revListCmd lref rref)), [revListCmd lref rref]) ∧
    (ahead_behind env lref rref).1 = some (0, 0) := by
  refine ⟨run_no_check env _, ?_⟩
  simp only [ahead_behind]
  rw [if_pos h]

theorem ahead_behind_failed_inspection_witness :
    (ahead_behind envAllFail "main" "origin/main").1 = some (0, 0) :=
  (ahead_behind_failed_inspection envAllFail "main" "origin/main" (Or.inl (by decide))).2

/-- C7: the auth resolver tries the three credential schemes in fixed
priority: the `BITBUCKET_USERNAME`/`BITBUCKET_API_TOKEN` basic-auth pair
first (so it wins even when a bearer token is also set), then the
`BITBUCKET_ACCESS_TOKEN` bearer header, then the legacy
`BB_USERNAME`/`BB_APP_PASSWORD` basic-auth pair. -/
theorem get_auth_context_priority (env : String → Option String) :
    (∀ u t, envTruthy env "BITBUCKET_USERNAME" = some u →
       envTruthy env "BITBUCKET_API_TOKEN" = some t →
       get_auth_context env = some (some (u, t), [])) ∧
    ((envTruthy env "BITBUCKET_USERNAME" = none ∨ envTruthy env "BITBUCKET_API_TOKEN" = none) →
       ∀ tok, envTruthy env "BITBUCKET_ACCESS_TOKEN" = some tok →
         get_auth_context env = some (none, [("Authorization", "Bearer " ++ tok)])) ∧
    ((envTruthy env "BITBUCKET_USERNAME" = none ∨ envTruthy env "BITBUCKET_API_TOKEN" = none) →
       envTruthy env "BITBUCKET_ACCESS_TOKEN" = none →
       ∀ u p, envTruthy env "BB_USERNAME" = some u → envTruthy env "BB_APP_PASSWORD" = some p →
         get_auth_context env = some (some (u, p), [])) := by
  refine ⟨?_, ?_, ?_⟩
  · intro u t hu ht
    simp [get_auth_context, hu, ht]
  · rintro (h | h) tok htok <;>
      cases hu : envTruthy env "BITBUCKET_USERNAME" <;>
        cases ht : envTruthy env "BITBUCKET_API_TOKEN" <;>
          simp_all [get_auth_context]
  · rintro (h | h) hacc u p hu hp <;>
      cases hu2 : envTruthy env "BITBUCKET_USERNAME" <;>
        cases ht : envTruthy env "BITBUCKET_API_TOKEN" <;>
          simp_all [get_auth_context]

theorem get_auth_context_priority_witness :
    envTruthy envVarsAll "BITBUCKET_ACCESS_TOKEN" = some "bearer-tok" ∧
    get_auth_context envVarsAll = some (some ("alice", "api-tok"), []) :=
  ⟨by decide, (get_auth_context_priority envVarsAll).1 "alice" "api-tok" (by decide) (by decide)⟩

/-- C1: the `fast_forward_default` state machine (not in dry-run, default
branch detected, ahead/behind counts `a`, `b` read off the rev-list
output).  Whenever `a > 0` — ahead-only as well as diverged — it returns
`skipped` and its trace is exactly the remote-tracking refresh plus the two
inspections (§4.8's refresh; no `git pull` and no local-ref fetch is
issued, so no local ref is mutated).  When `a = 0 ∧ b = 0` it likewise
returns `up-to-date` without a mutating command.  Only when `a = 0 ∧ b > 0`
does it attempt the fast-forward (a `pull --ff-only` when the default
branch is checked out, otherwise a direct `fetch branch:branch`), returning
`pulled` on exit 0 and `skipped` with the captured error text otherwise. -/
theorem fast_forward_default_state_machine (env : GitEnv) (br : String) (a b : Int)
    (hab : (ahead_behind env br ("origin/" ++ br)).1 = some (a, b))
    (_ha : 0 ≤ a) (hb : 0 ≤ b) :
    (0 < a → fast_forward_default env br false = (some ("skipped", none), ffInspectTrace br)) ∧
    (a = 0 → b = 0 →
      fast_forward_default env br false = (some ("up-to-date", none), ffInspectTrace br)) ∧
    (a = 0 → 0 < b → (current_branch env).1 = br →
      fast_forward_default env br false =
        (if (runNC env (pullFFCmd br)).returncode ≠ 0 then
           (some ("skipped", some (ffErrText env (pullFFCmd br))),
            ffInspectTrace br ++ [pullFFCmd br])
         else (some ("pulled", none), ffInspectTrace br ++ [pullFFCmd br]))) ∧
    (a = 0 → 0 < b → (current_branch env).1 ≠ br →
      fast_forward_default env br false =
        (if (runNC env (fetchLocalCmd br)).returncode ≠ 0 then
           (some ("skipped", some (ffErrText env (fetchLocalCmd br))),
            ffInspectTrace br ++ [fetchLocalCmd br])
         else (some ("pulled", none), ffInspectTrace br ++ [fetchLocalCmd br]))) := by
  have htr : update_remote_branch env br "origin" ++ (current_branch env).2 ++
      (ahead_behind env br ("origin/" ++ br)).2 = ffInspectTrace br := by
    simp [update_remote_branch, run, current_branch, ahead_behind, ffInspectTrace]
  refine ⟨?_, ?_, ?_, ?_⟩
  · intro hpos
    rcases lt_or_eq_of_le hb with hbpos | hbz
    · simp only [fast_forward_default, hab, htr]
      rw [if_neg (by omega), if_pos ⟨hpos, hbpos⟩]
    · simp only [fast_forward_default, hab, htr]
      rw [if_pos ⟨hpos, hbz.symm⟩]
  · intro haz hbz
    simp only [fast_forward_default, hab, htr]
    rw [if_neg (by omega), if_neg (by omega), if_pos ⟨haz, hbz⟩]
  · intro haz hbpos hcur
    simp only [fast_forward_default, hab, htr]
    rw [if_neg (by omega), if_neg (by omega), if_neg (by omega), if_neg (by decide),
      if_pos hcur]
  · intro haz hbpos hcur
    simp only [fast_forward_default, hab, htr]
    rw [if_neg (by omega), if_neg (by omega), if_neg (by omega), if_neg (by decide),
      if_neg hcur]

theorem fast_forward_default_state_machine_witness :
    (ahead_behind envAhead2 "main" ("origin/" ++ "main")).1 = some (2, 0) ∧
    fast_forward_default envAhead2 "main" false =
      (some ("skipped", none), ffInspectTrace "main") :=
  ⟨by decide,
   (fast_forward_default_state_machine envAhead2 "main" 2 0 (by decide) (by decide)
      (by decide)).1 (by decide)⟩

theorem ahead_behind_trace (env : GitEnv) (l r : String) :
    (ahead_behind env l r).2 = [revListCmd l r] := rfl

theorem aheadLoop_trace (env : GitEnv) :
    ∀ lines, ∀ c ∈ (aheadLoop env lines).2, ∃ l r, c = revListCmd l r := by
  intro lines
  induction lines with
  | nil => intro c hc; simp [aheadLoop] at hc
  | cons line rest ih =>
    intro c hc
    simp only [aheadLoop] at hc
    split at hc
    · exact ih c hc
    · split at hc
      · rename_i lcl upstream _ _
        split at hc
        · exact ih c hc
        · split at hc
          · rw [ahead_behind_trace] at hc
            simp at hc
            exact ⟨lcl, upstream, hc⟩
          · split at hc <;>
            · rw [ahead_behind_trace] at hc
              simp at hc
              rcases hc with hc | hc
              · exact ⟨lcl, upstream, hc⟩
              · exact ih c hc
      · exact ih c hc

theorem detect_trace (env : GitEnv) (remote : String) :
    ∀ c ∈ (detect_default_branch env remote).2,
      c = lsRemoteHeadCmd remote ∨ ∃ bn, c = lsRemoteHeadsCmd bn remote := by
  intro c hc
  simp only [detect_default_branch] at hc
  split at hc
  · simp at hc; exact Or.inl hc
  · simp at hc; exact Or.inl hc
  · split at hc
    · simp [remote_branch_exists] at hc
      rcases hc with hc | hc
      · exact Or.inl hc
      · exact Or.inr ⟨"main", hc⟩
    · split at hc <;>
      · simp [remote_branch_exists] at hc
        rcases hc with hc | hc | hc
        · exact Or.inl hc
        · exact Or.inr ⟨"main", hc⟩
        · exact Or.inr ⟨"master", hc⟩

/-- C10: with `perform_pull = False` (report without the sync pass), a
repository whose path exists and whose default branch is detected gets
action `"checked"` — a value outside the spec's state set
`to-clone / no-default-branch / skipped / up-to-date / pulled` — and the
remote-tracking refresh (`git fetch refs/heads/b:refs/remotes/origin/b`)
is never issued, so the ahead/behind counts reflect only locally-known
information. -/
theorem summarize_repo_checked (name : Option String) (slug dest : String) (env : GitEnv)
    (br : String)
    (hd : (detect_default_branch env "origin").1 = some (some br))
    (hab : (ahead_behind env br ("origin/" ++ br)).1 ≠ none)
    (hlab : (list_ahead_branches env).1 ≠ none) :
    (summarize_repo name slug dest true env false false).1 ≠ none ∧
    (∀ s, (summarize_repo name slug dest true env false false).1 = some s →
       s.action = some "checked") ∧
    ("checked" : String) ∉ ["to-clone", "no-default-branch", "skipped", "up-to-date", "pulled"] ∧
    fetchTrackCmd br "origin" ∉ (summarize_repo name slug dest true env false false).2 := by
  obtain ⟨ab, habs⟩ := Option.ne_none_iff_exists'.mp hab
  obtain ⟨lst, hlabs⟩ := Option.ne_none_iff_exists'.mp hlab
  have hfet : ∀ c, (c = lsRemoteHeadCmd "origin" ∨ ∃ bn, c = lsRemoteHeadsCmd bn "origin") →
      fetchTrackCmd br "origin" ≠ c := by
    rintro c (rfl | ⟨bn, rfl⟩) <;> simp [fetchTrackCmd, lsRemoteHeadCmd, lsRemoteHeadsCmd]
  have hfet2 : ∀ c, (∃ l r, c = revListCmd l r) → fetchTrackCmd br "origin" ≠ c := by
    rintro c ⟨l, r, rfl⟩; simp [fetchTrackCmd, revListCmd]
  have key : ∃ s tr, summarize_repo name slug dest true env false false = (some s, tr) ∧
      s.action = some "checked" ∧
      tr = (detect_default_branch env "origin").2 ++ [revParseCmd] ++ [] ++ [showRefCmd br] ++
        (if ((runNC env (showRefCmd br)).returncode == 0) = true
         then [revListCmd br ("origin/" ++ br)] else []) ++ [] ++ [statusCmd] ++
        (forEachRefCmd :: (aheadLoop env (charSplit '\n' (runNC env forEachRefCmd).stdout)).2) := by
    have hlabs' : (aheadLoop env (charSplit '\n' (runNC env forEachRefCmd).stdout)).1 = some lst := by
      simpa [list_ahead_branches, runNC] using hlabs
    cases hbex : (runNC env (showRefCmd br)).returncode == 0 <;>
      · simp only [summarize_repo, branch_exists, hbex, if_neg (by decide : ¬ true = false),
          Bool.false_eq_true, if_false, if_true, hd, habs, hlabs', list_ahead_branches,
          current_branch, is_dirty, ahead_behind_trace]
        exact ⟨_, _, rfl, rfl, by simp [hbex]⟩
  obtain ⟨s, tr, heq, hact, htr⟩ := key
  refine ⟨by rw [heq]; simp, ?_, by decide, ?_⟩
  · intro s' hs'
    rw [heq] at hs'
    simp at hs'
    rw [← hs']
    exact hact
  · rw [heq]
    simp only [htr]
    intro hmem
    simp only [List.mem_append, List.mem_cons, List.mem_singleton] at hmem
    rcases hmem with ((((((hm | hm) | hm) | hm) | hm) | hm) | hm) | hm | hm
    · exact hfet _ (detect_trace env "origin" _ hm) rfl
    · simp [fetchTrackCmd, revParseCmd] at hm
    · simp at hm
    · simp [fetchTrackCmd, showRefCmd] at hm
    · split at hm
      · simp at hm; exact hfet2 _ ⟨_, _, rfl⟩ hm
      · simp at hm
    · simp at hm
    · simp [fetchTrackCmd, statusCmd] at hm
    · simp [fetchTrackCmd, forEachRefCmd] at hm
    · exact hfet2 _ (aheadLoop_trace env _ _ hm) rfl

theorem summarize_repo_checked_witness :
    (detect_default_branch envChecked "origin").1 = some (some "main") ∧
    (∀ s, (summarize_repo none "repo" "/dest" true envChecked false false).1 = some s →
       s.action = some "checked") ∧
    fetchTrackCmd "main" "origin" ∉ (summarize_repo none "repo" "/dest" true envChecked false false).2 := by
  have h := summarize_repo_checked none "repo" "/dest" envChecked "main" (by decide)
    (by decide) (by decide)
  exact ⟨by decide, h.2.1, h.2.2.2⟩

end CloneBB

namespace RepoCleanup

/-- C8: `human_size` renders a byte count in base-1024 units with one
decimal place over `B/KB/MB/GB/TB`, dividing by 1024 until the value is
below 1024 or the TB unit is reached (saturating at TB); in particular
`human_size 0 = "0.0 B"`, `human_size 1536 = "1.5 KB"`,
`human_size 1073741824 = "1.0 GB"`, with the 1023/1024 boundary and the
TB saturation checked as well. -/
theorem human_size_rendering :
    (∀ n : Nat, human_size n =
      (if n < 1024 then fmt1 ⟨n, 1⟩ ++ " " ++ "B"
       else if n < 1048576 then fmt1 ⟨n, 1024⟩ ++ " " ++ "KB"
       else if n < 1073741824 then fmt1 ⟨n, 1048576⟩ ++ " " ++ "MB"
       else if n < 1099511627776 then fmt1 ⟨n, 1073741824⟩ ++ " " ++ "GB"
       else fmt1 ⟨n, 1099511627776⟩ ++ " " ++ "TB")) ∧
    human_size 0 = "0.0 B" ∧ human_size 1536 = "1.5 KB" ∧
    human_size 1073741824 = "1.0 GB" ∧ human_size 1023 = "1023.0 B" ∧
    human_size 1024 = "1.0 KB" ∧ human_size 1099511627776 = "1.0 TB" ∧
    human_size 1125899906842624 = "1024.0 TB" := by
  refine ⟨?_, ?_, ?_, ?_, ?_, ?_, ?_, ?_⟩
  · intro n
    simp only [human_size, hsUnits, hsGo, dyLt1024, dyDiv1024, decide_eq_true_eq]
  all_goals decide

theorem mem_dedupAcc (p : PathC) :
    ∀ (l seen : List PathC), p ∈ dedupAcc seen l ↔ p ∈ l ∧ p ∉ seen := by
  intro l
  induction l with
  | nil => intro seen; simp [dedupAcc]
  | cons q rest ih =>
    intro seen
    simp only [dedupAcc]
    split
    · rename_i hq
      rw [ih]
      simp only [List.mem_cons]
      constructor
      · rintro ⟨h1, h2⟩; exact ⟨Or.inr h1, h2⟩
      · rintro ⟨h1 | h1, h2⟩
        · subst h1; exact absurd (by simpa using hq) h2
        · exact ⟨h1, h2⟩
    · rename_i hq
      simp only [List.mem_cons, ih, List.mem_append, List.mem_singleton]
      constructor
      · rintro (rfl | ⟨h1, h2⟩)
        · exact ⟨Or.inl rfl, by simpa using hq⟩
        · exact ⟨Or.inr h1, fun hs => h2 (Or.inl hs)⟩
      · rintro ⟨rfl | h1, h2⟩
        · exact Or.inl rfl
        · by_cases hpq : p = q
          · exact Or.inl hpq
          · exact Or.inr ⟨h1, by simp [h2, hpq]⟩

theorem nodup_dedupAcc : ∀ (l seen : List PathC), (dedupAcc seen l).Nodup := by
  intro l
  induction l with
  | nil => intro seen; simp [dedupAcc]
  | cons q rest ih =>
    intro seen
    simp only [dedupAcc]
    split
    · exact ih _
    · refine List.Nodup.cons ?_ (ih _)
      intro hmem
      rw [mem_dedupAcc] at hmem
      exact hmem.2 (by simp)

theorem pathStr_append (q r : PathC) (hq : q ≠ []) (hr : r ≠ []) :
    pathStr (q ++ r) = pathStr q ++ "/" ++ pathStr r := by
  induction q with
  | nil => simp at hq
  | cons x q' ih =>
    cases q' with
    | nil =>
      cases r with
      | nil => simp at hr
      | cons y r' => simp [pathStr, joinWith, String.append_assoc]
    | cons z q'' =>
      have h1 : pathStr (x :: (z :: q'') ++ r) = x ++ "/" ++ pathStr ((z :: q'') ++ r) := by
        cases h : (z :: q'') ++ r <;> simp_all [pathStr, joinWith]
      rw [h1, ih (by simp)]
      simp [pathStr, joinWith, String.append_assoc]

theorem idxOfP_lt_length (p : PathC) : ∀ l : List PathC, p ∈ l → idxOfP p l < l.length := by
  intro l
  induction l with
  | nil => simp
  | cons q rest ih =>
    intro hmem
    simp only [idxOfP]
    split
    · simp
    · rename_i hne
      have : p ∈ rest := by
        rcases List.mem_cons.mp hmem with rfl | h
        · exact absurd rfl hne
        · exact h
      simpa using ih this

theorem get_idxOfP (p : PathC) : ∀ (l : List PathC), p ∈ l →
    ∀ (h : idxOfP p l < l.length), l.get ⟨idxOfP p l, h⟩ = p := by
  intro l
  induction l with
  | nil => simp
  | cons q rest ih =>
    intro hmem h
    simp only [idxOfP] at h ⊢
    by_cases hqp : q = p
    · simp [hqp]
    · have hp : p ∈ rest := by
        rcases List.mem_cons.mp hmem with rfl | hh
        · exact absurd rfl hqp
        · exact hh
      simp only [hqp, if_false, List.length_cons] at h ⊢
      simpa using ih hp (by omega)

theorem pathStr_length_lt (q p : PathC) (hq : q ≠ []) (hpre : q <+: p) (hne : q ≠ p) :
    (pathStr q).length < (pathStr p).length := by
  obtain ⟨r, rfl⟩ := hpre
  have hr : r ≠ [] := by rintro rfl; simp at hne
  rw [pathStr_append q r hq hr]
  have h1 : (("/" : String)).length = 1 := by decide
  simp only [String.length_append, h1]
  omega

/-- C4: `delete_all` processes the deduplicated flattened paths in order
of non-increasing path-string length, so for any proper ancestor pair in
the match set the descendant is attempted strictly before the ancestor
(the ancestor's rendered string being strictly shorter). -/
theorem delete_all_order_children_first (ms : List (String × List PathC × Nat)) (p q : PathC)
    (hp : p ∈ ms.flatMap (fun kv => kv.2.1)) (hq : q ∈ ms.flatMap (fun kv => kv.2.1))
    (hanc : properAncestor q p = true) (hq0 : q ≠ []) :
    p ∈ delete_all_order ms ∧ q ∈ delete_all_order ms ∧
    idxOfP p (delete_all_order ms) < idxOfP q (delete_all_order ms) := by
  have hpre : q <+: p ∧ q ≠ p := by
    simpa [properAncestor, List.isPrefixOf_iff_prefix, -ne_eq] using hanc
  have hlen : (pathStr q).length < (pathStr p).length :=
    pathStr_length_lt q p hq0 hpre.1 hpre.2
  haveI htot : IsTotal PathC (fun a b : PathC => (pathStr b).length ≤ (pathStr a).length) :=
    ⟨fun a b => (le_total (pathStr b).length (pathStr a).length)⟩
  haveI htrans : IsTrans PathC (fun a b : PathC => (pathStr b).length ≤ (pathStr a).length) :=
    ⟨fun _ _ _ hab hbc => le_trans hbc hab⟩
  have hperm := List.perm_insertionSort
    (fun a b : PathC => (pathStr b).length ≤ (pathStr a).length)
    (dedupKeepFirst (ms.flatMap (fun kv => kv.2.1)))
  have hmemp : p ∈ delete_all_order ms := by
    rw [delete_all_order, hperm.mem_iff, dedupKeepFirst, mem_dedupAcc]
    exact ⟨hp, by simp⟩
  have hmemq : q ∈ delete_all_order ms := by
    rw [delete_all_order, hperm.mem_iff, dedupKeepFirst, mem_dedupAcc]
    exact ⟨hq, by simp⟩
  have hnd : (delete_all_order ms).Nodup := by
    rw [delete_all_order, hperm.nodup_iff]
    exact nodup_dedupAcc _ _
  have hsorted : List.Pairwise
      (fun a b : PathC => (pathStr b).length ≤ (pathStr a).length) (delete_all_order ms) :=
    List.sorted_insertionSort _ _
  refine ⟨hmemp, hmemq, ?_⟩
  have hip : idxOfP p (delete_all_order ms) < (delete_all_order ms).length :=
    idxOfP_lt_length p _ hmemp
  have hiq : idxOfP q (delete_all_order ms) < (delete_all_order ms).length :=
    idxOfP_lt_length q _ hmemq
  have h1 := get_idxOfP p _ hmemp hip
  have h2 := get_idxOfP q _ hmemq hiq
  by_contra hcon
  push_neg at hcon
  have hne' : idxOfP q (delete_all_order ms) ≠ idxOfP p (delete_all_order ms) := by
    intro he
    apply hpre.2
    rw [← h2, ← h1]
    congr 1
    exact Fin.ext he
  have hlt : idxOfP q (delete_all_order ms) < idxOfP p (delete_all_order ms) := by omega
  have := (List.pairwise_iff_get.mp hsorted) ⟨_, hiq⟩ ⟨_, hip⟩ hlt
  rw [h1, h2] at this
  omega

theorem delete_all_order_children_first_witness :
    ["a", "b", "c"] ∈ delete_all_order [("Build", [["a", "b", "c"], ["a", "b"]], 0)] ∧
    ["a", "b"] ∈ delete_all_order [("Build", [["a", "b", "c"], ["a", "b"]], 0)] ∧
    idxOfP ["a", "b", "c"] (delete_all_order [("Build", [["a", "b", "c"], ["a", "b"]], 0)]) <
      idxOfP ["a", "b"] (delete_all_order [("Build", [["a", "b", "c"], ["a", "b"]], 0)]) :=
  delete_all_order_children_first [("Build", [["a", "b", "c"], ["a", "b"]], 0)]
    ["a", "b", "c"] ["a", "b"] (by decide) (by decide) (by decide) (by decide)

/-! ### Path and tree utilities for the scan proofs -/

theorem mem_parentsOf (q p : PathC) : q ∈ parentsOf p ↔ q <+: p ∧ q ≠ p := by
  simp only [parentsOf, List.mem_map, List.mem_range]
  constructor
  · rintro ⟨k, hk, rfl⟩
    refine ⟨List.take_prefix k p, ?_⟩
    intro he
    have := congrArg List.length he
    simp [List.length_take] at this
    omega
  · rintro ⟨hpre, hne⟩
    refine ⟨q.length, ?_, ?_⟩
    · have hle := hpre.length_le
      rcases lt_or_eq_of_le hle with h | h
      · exact h
      · exfalso
        apply hne
        rw [List.prefix_iff_eq_take] at hpre
        rw [hpre, h, List.take_length]
    · rw [List.prefix_iff_eq_take] at hpre
      exact hpre.symm

theorem append_cons_inj (dp : PathC) (m n : String) (r1 r2 : List String)
    (h : dp ++ m :: r1 = dp ++ n :: r2) : m = n ∧ r1 = r2 := by
  have := List.append_cancel_left h
  simpa using this

theorem not_prefix_of_append_cons (dp : PathC) (m : String) (r : List String) :
    ¬ (dp ++ m :: r <+: dp) := by
  intro h
  have := h.length_le
  simp only [List.length_append, List.length_cons] at this
  omega

theorem nodupStr_head (x : String) (xs : List String) (h : nodupStr (x :: xs) = true) :
    x ∉ xs ∧ nodupStr xs = true := by
  simp only [nodupStr, Bool.and_eq_true, Bool.not_eq_true'] at h
  exact ⟨by simpa using h.1, h.2⟩

theorem wf_tail (e : FSE) (rest : FSL) (h : wfForest (.cons e rest) = true) :
    wfForest rest = true := by
  simp only [wfForest, Bool.and_eq_true] at h ⊢
  obtain ⟨h1, h2⟩ := h
  have hn : entryNames (FSL.cons e rest) = e.name :: entryNames rest := rfl
  rw [hn] at h1
  obtain ⟨_, h1'⟩ := nodupStr_head _ _ h1
  refine ⟨h1', ?_⟩
  cases e with
  | file nm sz => exact h2
  | dir nm cs =>
    simp only [wfSub, Bool.and_eq_true] at h2
    exact h2.2

theorem wf_head_dir (n : String) (cs rest : FSL) (h : wfForest (.cons (.dir n cs) rest) = true) :
    wfForest cs = true := by
  simp only [wfForest, wfSub, Bool.and_eq_true] at h ⊢
  exact ⟨h.2.1.1, h.2.1.2⟩

theorem wf_head_name (e : FSE) (rest : FSL) (h : wfForest (.cons e rest) = true) :
    e.name ∉ entryNames rest := by
  simp only [wfForest, Bool.and_eq_true] at h
  have hn : entryNames (FSL.cons e rest) = e.name :: entryNames rest := rfl
  rw [hn] at h
  exact (nodupStr_head _ _ h.1).1

theorem findNamed_name (es : FSL) (n : String) (e : FSE) (h : findNamed es n = some e) :
    e.name = n ∧ e ∈ es.toList := by
  simp only [findNamed] at h
  refine ⟨by simpa using List.find?_some h, List.mem_of_find?_eq_some h⟩

theorem findNamed_cons_of_ne (e : FSE) (rest : FSL) (n : String) (hne : e.name ≠ n) :
    findNamed (.cons e rest) n = findNamed rest n := by
  simp only [findNamed, FSL.toList, List.find?_cons]
  have : (e.name == n) = false := by simpa using hne
  simp [this]

theorem findNamed_of_mem_nodup : ∀ (es : FSL) (e : FSE),
    nodupStr (entryNames es) = true → e ∈ es.toList → findNamed es e.name = some e
  | .nil, e, _, hmem => by simp [FSL.toList] at hmem
  | .cons e' rest, e, hwfn, hmem => by
    have hn : entryNames (FSL.cons e' rest) = e'.name :: entryNames rest := rfl
    rw [hn] at hwfn
    obtain ⟨hnin, hrest⟩ := nodupStr_head _ _ hwfn
    rcases (by simpa [FSL.toList] using hmem : e = e' ∨ e ∈ rest.toList) with rfl | hm
    · simp [findNamed, FSL.toList, List.find?_cons]
    · have hne : e'.name ≠ e.name := by
        intro he
        apply hnin
        rw [he]
        simp only [entryNames, List.mem_map]
        exact ⟨e, hm, rfl⟩
      rw [findNamed_cons_of_ne e' rest e.name hne]
      exact findNamed_of_mem_nodup rest e hrest hm

theorem findEntry_head_mem (es : FSL) (m : String) (t : List String) (x : FSE)
    (h : findEntry es (m :: t) = some x) : m ∈ entryNames es := by
  cases t with
  | nil =>
    simp only [findEntry] at h
    obtain ⟨hn, hm⟩ := findNamed_name es m x h
    simp only [entryNames, List.mem_map]
    exact ⟨x, hm, hn⟩
  | cons t0 ts =>
    simp only [findEntry] at h
    cases hf : findNamed es m with
    | none => rw [hf] at h; simp at h
    | some e =>
      obtain ⟨hn, hm⟩ := findNamed_name es m e hf
      simp only [entryNames, List.mem_map]
      exact ⟨e, hm, hn⟩

theorem findEntry_cons_of_ne (e : FSE) (rest : FSL) (s : List String) (x : FSE)
    (h : findEntry rest s = some x) (hne : ∀ m t, s = m :: t → e.name ≠ m) :
    findEntry (.cons e rest) s = some x := by
  cases s with
  | nil => simp [findEntry] at h
  | cons m t =>
    have hem : e.name ≠ m := hne m t rfl
    cases t with
    | nil =>
      simp only [findEntry] at h ⊢
      rw [findNamed_cons_of_ne e rest m hem]
      exact h
    | cons t0 ts =>
      simp only [findEntry] at h ⊢
      rw [findNamed_cons_of_ne e rest m hem]
      exact h

theorem findEntry_cons_dir (n : String) (cs rest : FSL) (s : List String) (hs : s ≠ []) :
    findEntry (.cons (.dir n cs) rest) (n :: s) = findEntry cs s := by
  cases s with
  | nil => exact absurd rfl hs
  | cons s0 ss =>
    simp only [findEntry, findNamed, FSL.toList, List.find?_cons]
    have : (FSE.name (.dir n cs) == n) = true := by simp [FSE.name]
    simp [this]

theorem findEntry_strict_prefix_dir : ∀ (s : List String) (es : FSL) (e : FSE),
    findEntry es s = some e →
    ∀ s', s' <+: s → s' ≠ [] → s' ≠ s → ∃ n cs, findEntry es s' = some (.dir n cs)
  | [], _, _, _, s', hp, hne, _ => by rw [List.prefix_nil] at hp; exact absurd hp hne
  | m :: t, es, e, h, s', hp, hne, hnes => by
    obtain ⟨u, hu⟩ := hp
    cases s' with
    | nil => exact absurd rfl hne
    | cons m' t' =>
      have hm' : m = m' := by
        have := congrArg List.head? hu
        simpa using this.symm
      subst hm'
      have htu : t' ++ u = t := by
        have := congrArg List.tail hu
        simpa using this
      cases t with
      | nil =>
        have ht' : t' = [] := (List.append_eq_nil.mp htu).1
        exact absurd (by rw [ht']) hnes
      | cons t0 ts =>
        simp only [findEntry] at h
        cases hf : findNamed es m with
        | none => rw [hf] at h; simp at h
        | some fe =>
          rw [hf] at h
          cases fe with
          | file nm sz => simp at h
          | dir nm cs =>
            cases t' with
            | nil =>
              refine ⟨nm, cs, ?_⟩
              simp only [findEntry]
              rw [hf]
            | cons v vs =>
              have hpre : (v :: vs) <+: (t0 :: ts) := ⟨u, htu⟩
              have hnes2 : (v :: vs) ≠ (t0 :: ts) := fun he => hnes (by rw [he])
              obtain ⟨n2, cs2, hfe⟩ :=
                findEntry_strict_prefix_dir (t0 :: ts) cs e h (v :: vs) hpre (by simp) hnes2
              refine ⟨n2, cs2, ?_⟩
              simp only [findEntry]
              rw [hf]
              exact hfe

/-! ### Bucket and `add_item` lemmas -/

theorem bucketOf_setdefault (m : List (String × List PathC)) (cat cat' : String) :
    bucketOf (setdefaultBucket m cat) cat' = bucketOf m cat' := by
  simp only [setdefaultBucket]
  split
  · rfl
  · rename_i hany
    simp only [bucketOf, List.find?_append]
    cases hf : m.find? (fun kv => kv.1 == cat') with
    | some kv => simp
    | none =>
      simp only [Option.none_or]
      simp only [List.find?_cons, List.find?_nil]
      by_cases hcc : cat = cat'
      · subst hcc
        simp
      · have : ((cat, ([] : List PathC)).1 == cat') = false := by simpa using hcc
        simp [this]

theorem setdefault_any (m : List (String × List PathC)) (cat : String) :
    (setdefaultBucket m cat).any (fun kv => kv.1 == cat) = true := by
  simp only [setdefaultBucket]
  split
  · assumption
  · simp

theorem keys_setdefault_nodup (m : List (String × List PathC)) (cat : String)
    (h : (m.map Prod.fst).Nodup) : ((setdefaultBucket m cat).map Prod.fst).Nodup := by
  simp only [setdefaultBucket]
  split
  · exact h
  · rename_i hany
    rw [List.map_append]
    simp only [List.map_cons, List.map_nil]
    rw [List.nodup_append]
    refine ⟨h, by simp, ?_⟩
    intro a ha hb
    simp only [List.mem_singleton] at hb
    subst hb
    simp only [List.mem_map] at ha
    obtain ⟨kv, hkv, hk⟩ := ha
    apply hany
    simp only [List.any_eq_true]
    exact ⟨kv, hkv, by simpa using hk⟩

theorem bucketOf_cons (kv : String × List PathC) (m : List (String × List PathC))
    (cat' : String) :
    bucketOf (kv :: m) cat' = if kv.1 = cat' then kv.2 else bucketOf m cat' := by
  simp only [bucketOf, List.find?_cons]
  cases h : kv.1 == cat' with
  | true => simp [show kv.1 = cat' by simpa using h]
  | false => simp [show ¬ kv.1 = cat' by simpa using h]

theorem appendToBucket_cons (kv : String × List PathC) (m : List (String × List PathC))
    (cat : String) (p : PathC) :
    appendToBucket (kv :: m) cat p =
      (if kv.1 = cat then (kv.1, kv.2 ++ [p]) else kv) :: appendToBucket m cat p := by
  simp only [appendToBucket, List.map_cons]
  congr 1
  cases h : kv.1 == cat with
  | true => simp [show kv.1 = cat by simpa using h]
  | false => simp [show ¬ kv.1 = cat by simpa using h]

theorem keys_appendToBucket (m : List (String × List PathC)) (cat : String) (p : PathC) :
    (appendToBucket m cat p).map Prod.fst = m.map Prod.fst := by
  induction m with
  | nil => rfl
  | cons kv m' ih =>
    rw [appendToBucket_cons]
    simp only [List.map_cons, ih]
    congr 1
    split <;> rfl

theorem bucketOf_appendToBucket_ne (m : List (String × List PathC)) (cat cat' : String)
    (p : PathC) (hne : cat' ≠ cat) :
    bucketOf (appendToBucket m cat p) cat' = bucketOf m cat' := by
  induction m with
  | nil => rfl
  | cons kv m' ih =>
    rw [appendToBucket_cons, bucketOf_cons, bucketOf_cons]
    by_cases hk : kv.1 = cat
    · have h3 : ¬ (kv.1 = cat') := by
        rw [hk]
        exact fun he => hne he.symm
      have h2 : ¬ ((if kv.1 = cat then (kv.1, kv.2 ++ [p]) else kv).1 = cat') := by
        rw [if_pos hk]
        exact h3
      rw [if_neg h2, if_neg h3, ih]
    · simp only [hk, if_false]
      by_cases h2 : kv.1 = cat'
      · rw [if_pos h2, if_pos h2]
      · rw [if_neg h2, if_neg h2, ih]

theorem bucketOf_appendToBucket_self (m : List (String × List PathC)) (cat : String)
    (p : PathC) (hkey : m.any (fun kv => kv.1 == cat) = true) :
    bucketOf (appendToBucket m cat p) cat = bucketOf m cat ++ [p] := by
  induction m with
  | nil => simp at hkey
  | cons kv m' ih =>
    rw [appendToBucket_cons, bucketOf_cons, bucketOf_cons]
    by_cases hk : kv.1 = cat
    · simp [hk]
    · have h1 : (kv.1 == cat) = false := by simpa using hk
      simp only [List.any_cons, h1, Bool.false_or] at hkey
      simp only [hk, if_false]
      exact ih hkey

theorem add_item_chosen (excl : List String) (st : ScanSt) (cat : String) (p : PathC) :
    (add_item excl st cat p).chosenDirs = st.chosenDirs := by
  simp only [add_item]
  split
  · rfl
  · split <;> rfl

theorem add_item_keys_nodup (excl : List String) (st : ScanSt) (cat : String) (p : PathC)
    (h : (st.matchesDict.map Prod.fst).Nodup) :
    ((add_item excl st cat p).matchesDict.map Prod.fst).Nodup := by
  simp only [add_item]
  split
  · exact h
  · split
    · exact keys_setdefault_nodup _ _ h
    · rw [keys_appendToBucket]
      exact keys_setdefault_nodup _ _ h

theorem ItemIn_add_item (excl : List String) (st : ScanSt) (cat : String) (p : PathC)
    (cat' : String) (p' : PathC) :
    ItemIn (add_item excl st cat p) cat' p' ↔
      ItemIn st cat' p' ∨
        (should_exclude_by_glob p excl = false ∧
          ((parentsOf p).any (fun q => st.chosenDirs.contains q)) = false ∧
          cat' = cat ∧ p' = p) := by
  simp only [ItemIn, add_item]
  split
  · rename_i hexc
    simp only [hexc]
    constructor
    · exact Or.inl
    · rintro (h | ⟨hf, _⟩)
      · exact h
      · simp at hf
  · rename_i hexc
    have hexc' : should_exclude_by_glob p excl = false := by
      simpa using hexc
    split
    · rename_i hg
      simp only [bucketOf_setdefault]
      constructor
      · exact Or.inl
      · rintro (h | ⟨_, hg', _, _⟩)
        · exact h
        · rw [hg] at hg'
          simp at hg'
    · rename_i hg
      have hg' : ((parentsOf p).any (fun q => st.chosenDirs.contains q)) = false := by
        simpa using hg
      by_cases hcc : cat' = cat
      · subst hcc
        rw [show (⟨appendToBucket (setdefaultBucket st.matchesDict cat') cat' p,
              st.chosenDirs⟩ : ScanSt).matchesDict =
            appendToBucket (setdefaultBucket st.matchesDict cat') cat' p from rfl]
        rw [bucketOf_appendToBucket_self _ _ _ (setdefault_any _ _), bucketOf_setdefault]
        simp only [List.mem_append, List.mem_singleton]
        constructor
        · rintro (h | h)
          · exact Or.inl h
          · exact Or.inr ⟨hexc', hg', by trivial, h⟩
        · rintro (h | ⟨_, _, _, h⟩)
          · exact Or.inl h
          · exact Or.inr h
      · rw [show (⟨appendToBucket (setdefaultBucket st.matchesDict cat) cat p,
              st.chosenDirs⟩ : ScanSt).matchesDict =
            appendToBucket (setdefaultBucket st.matchesDict cat) cat p from rfl]
        rw [bucketOf_appendToBucket_ne _ _ _ _ hcc, bucketOf_setdefault]
        constructor
        · exact Or.inl
        · rintro (h | ⟨_, _, hc, _⟩)
          · exact h
          · exact absurd hc hcc

/-! ### Matching-phase lemmas -/

theorem guard_false_of_chosen_ok (dp : PathC) (x : String) (chosen : List PathC)
    (hch1 : ∀ c ∈ chosen, ¬ (c <+: dp)) :
    ((parentsOf (dp ++ [x])).any (fun q => chosen.contains q)) = false := by
  rw [List.any_eq_false]
  intro q hq
  rw [mem_parentsOf] at hq
  obtain ⟨hpre, hne⟩ := hq
  rcases List.prefix_concat_iff.mp hpre with he | hpre'
  · exact absurd he hne
  · intro hcon
    have hmem : q ∈ chosen := by simpa using hcon
    exact hch1 q hmem hpre'

theorem matchDirsPhase_spec (dr : List Rule) (excl : List String) (dp : PathC) :
    ∀ (ds : List String) (st : ScanSt),
      (∀ c ∈ st.chosenDirs, ¬ (c <+: dp)) →
      ((matchDirsPhase dr excl dp ds st).1.chosenDirs =
        st.chosenDirs ++ (matchDirsPhase dr excl dp ds st).2.map (fun d => dp ++ [d])) ∧
      (∀ d', d' ∈ (matchDirsPhase dr excl dp ds st).2 ↔
        d' ∈ ds ∧ firstMatchRule dr d' ≠ none) ∧
      (∀ cat p, ItemIn (matchDirsPhase dr excl dp ds st).1 cat p ↔ ItemIn st cat p ∨
        ∃ d r, d ∈ ds ∧ firstMatchRule dr d = some r ∧ r.cat = cat ∧ p = dp ++ [d] ∧
          should_exclude_by_glob (dp ++ [d]) excl = false) ∧
      ((st.matchesDict.map Prod.fst).Nodup →
        ((matchDirsPhase dr excl dp ds st).1.matchesDict.map Prod.fst).Nodup) := by
  intro ds
  induction ds with
  | nil =>
    intro st hch1
    simp [matchDirsPhase]
  | cons d ds ih =>
    intro st hch1
    simp only [matchDirsPhase]
    cases hF : firstMatchRule dr d with
    | none =>
      obtain ⟨ihc, ihp, ihi, ihk⟩ := ih st hch1
      refine ⟨ihc, ?_, ?_, ihk⟩
      · intro d'
        rw [ihp d']
        constructor
        · rintro ⟨hm, hn⟩; exact ⟨List.mem_cons_of_mem _ hm, hn⟩
        · rintro ⟨hm, hn⟩
          rcases List.mem_cons.mp hm with rfl | hm'
          · exact absurd hF hn
          · exact ⟨hm', hn⟩
      · intro cat p
        rw [ihi cat p]
        constructor
        · rintro (h | ⟨d', r, hm, hr, hc, hp, he⟩)
          · exact Or.inl h
          · exact Or.inr ⟨d', r, List.mem_cons_of_mem _ hm, hr, hc, hp, he⟩
        · rintro (h | ⟨d', r, hm, hr, hc, hp, he⟩)
          · exact Or.inl h
          · rcases List.mem_cons.mp hm with rfl | hm'
            · rw [hF] at hr; exact absurd hr (by simp)
            · exact Or.inr ⟨d', r, hm', hr, hc, hp, he⟩
    | some r =>
      have hguard : ((parentsOf (dp ++ [d])).any (fun q => st.chosenDirs.contains q)) = false :=
        guard_false_of_chosen_ok dp d st.chosenDirs hch1
      have hch1' : ∀ c ∈ ({ add_item excl st r.cat (dp ++ [d]) with
          chosenDirs := (add_item excl st r.cat (dp ++ [d])).chosenDirs ++ [dp ++ [d]] } :
            ScanSt).chosenDirs, ¬ (c <+: dp) := by
        intro c hc
        rw [add_item_chosen] at hc
        rcases List.mem_append.mp hc with h | h
        · exact hch1 c h
        · rw [List.mem_singleton] at h
          subst h
          exact not_prefix_of_append_cons dp d []
      obtain ⟨ihc, ihp, ihi, ihk⟩ := ih _ hch1'
      refine ⟨?_, ?_, ?_, ?_⟩
      · rw [ihc]
        simp only [add_item_chosen, List.map_cons]
        rw [List.append_assoc]
        rfl
      · intro d'
        simp only [List.mem_cons]
        rw [ihp d']
        constructor
        · rintro (rfl | ⟨hm, hn⟩)
          · exact ⟨Or.inl rfl, by rw [hF]; simp⟩
          · exact ⟨Or.inr hm, hn⟩
        · rintro ⟨rfl | hm, hn⟩
          · exact Or.inl rfl
          · exact Or.inr ⟨hm, hn⟩
      · intro cat p
        rw [ihi cat p]
        have hadd := ItemIn_add_item excl st r.cat (dp ++ [d]) cat p
        have hst2 : ItemIn ({ add_item excl st r.cat (dp ++ [d]) with
            chosenDirs := (add_item excl st r.cat (dp ++ [d])).chosenDirs ++ [dp ++ [d]] } :
              ScanSt) cat p ↔ ItemIn (add_item excl st r.cat (dp ++ [d])) cat p := Iff.rfl
        rw [hst2, hadd, hguard]
        constructor
        · rintro ((h | ⟨he, _, hc, hp⟩) | ⟨d', r', hm, hr, hc, hp, hex⟩)
          · exact Or.inl h
          · subst hp
            exact Or.inr ⟨d, r, List.mem_cons_self d ds, hF, hc.symm, rfl, he⟩
          · exact Or.inr ⟨d', r', List.mem_cons_of_mem _ hm, hr, hc, hp, hex⟩
        · rintro (h | ⟨d', r', hm, hr, hc, hp, hex⟩)
          · exact Or.inl (Or.inl h)
          · rcases List.mem_cons.mp hm with rfl | hm'
            · rw [hF] at hr
              obtain rfl : r = r' := by simpa using hr
              exact Or.inl (Or.inr ⟨hex, rfl, hc.symm, hp⟩)
            · exact Or.inr ⟨d', r', hm', hr, hc, hp, hex⟩
      · intro hk
        exact ihk (add_item_keys_nodup _ _ _ _ hk)

theorem matchFilesPhase_spec (fr : List Rule) (excl : List String) (dp : PathC) :
    ∀ (fs : List String) (st : ScanSt),
      (∀ c ∈ st.chosenDirs, ¬ (c <+: dp)) →
      ((matchFilesPhase fr excl dp fs st).chosenDirs = st.chosenDirs) ∧
      (∀ cat p, ItemIn (matchFilesPhase fr excl dp fs st) cat p ↔ ItemIn st cat p ∨
        ∃ f r, f ∈ fs ∧ firstMatchRule fr f = some r ∧ r.cat = cat ∧ p = dp ++ [f] ∧
          should_exclude_by_glob (dp ++ [f]) excl = false) ∧
      ((st.matchesDict.map Prod.fst).Nodup →
        ((matchFilesPhase fr excl dp fs st).matchesDict.map Prod.fst).Nodup) := by
  intro fs
  induction fs with
  | nil =>
    intro st hch1
    simp [matchFilesPhase]
  | cons f fs ih =>
    intro st hch1
    simp only [matchFilesPhase]
    cases hF : firstMatchRule fr f with
    | none =>
      obtain ⟨ihc, ihi, ihk⟩ := ih st hch1
      refine ⟨ihc, ?_, ihk⟩
      intro cat p
      rw [ihi cat p]
      constructor
      · rintro (h | ⟨f', r, hm, hr, hc, hp, he⟩)
        · exact Or.inl h
        · exact Or.inr ⟨f', r, List.mem_cons_of_mem _ hm, hr, hc, hp, he⟩
      · rintro (h | ⟨f', r, hm, hr, hc, hp, he⟩)
        · exact Or.inl h
        · rcases List.mem_cons.mp hm with rfl | hm'
          · rw [hF] at hr; exact absurd hr (by simp)
          · exact Or.inr ⟨f', r, hm', hr, hc, hp, he⟩
    | some r =>
      have hguard : ((parentsOf (dp ++ [f])).any (fun q => st.chosenDirs.contains q)) = false :=
        guard_false_of_chosen_ok dp f st.chosenDirs hch1
      have hch1' : ∀ c ∈ (add_item excl st r.cat (dp ++ [f])).chosenDirs, ¬ (c <+: dp) := by
        rw [add_item_chosen]
        exact hch1
      obtain ⟨ihc, ihi, ihk⟩ := ih _ hch1'
      refine ⟨?_, ?_, ?_⟩
      · rw [ihc, add_item_chosen]
      · intro cat p
        rw [ihi cat p, ItemIn_add_item excl st r.cat (dp ++ [f]) cat p, hguard]
        constructor
        · rintro ((h | ⟨he, _, hc, hp⟩) | ⟨f', r', hm, hr, hc, hp, hex⟩)
          · exact Or.inl h
          · subst hp
            exact Or.inr ⟨f, r, List.mem_cons_self f fs, hF, hc.symm, rfl, he⟩
          · exact Or.inr ⟨f', r', List.mem_cons_of_mem _ hm, hr, hc, hp, hex⟩
        · rintro (h | ⟨f', r', hm, hr, hc, hp, hex⟩)
          · exact Or.inl (Or.inl h)
          · rcases List.mem_cons.mp hm with rfl | hm'
            · rw [hF] at hr
              obtain rfl : r = r' := by simpa using hr
              exact Or.inl (Or.inr ⟨hex, rfl, hc.symm, hp⟩)
            · exact Or.inr ⟨f', r', hm', hr, hc, hp, hex⟩
      · intro hk
        exact ihk (add_item_keys_nodup _ _ _ _ hk)

theorem entryNames_cons (e : FSE) (rest : FSL) :
    entryNames (.cons e rest) = e.name :: entryNames rest := rfl

theorem scanLevel_spec (dr fr : List Rule) (excl : List String) (dp : PathC) (es : FSL)
    (st : ScanSt) (hch1 : ∀ c ∈ st.chosenDirs, ¬ (c <+: dp))
    (hkeys : (st.matchesDict.map Prod.fst).Nodup) :
    LevelOut dr fr excl dp es st (scanLevel dr fr excl dp es st).1
      (scanLevel dr fr excl dp es st).2 := by
  obtain ⟨dc, dpr, dii, dk⟩ :=
    matchDirsPhase_spec dr excl dp ((dirNames es).filter (fun d => d ≠ ".git")) st hch1
  have hch1' : ∀ c ∈ (matchDirsPhase dr excl dp
      ((dirNames es).filter (fun d => d ≠ ".git")) st).1.chosenDirs, ¬ (c <+: dp) := by
    rw [dc]
    intro c hc
    rcases List.mem_append.mp hc with h | h
    · exact hch1 c h
    · simp only [List.mem_map] at h
      obtain ⟨d, _, rfl⟩ := h
      exact not_prefix_of_append_cons dp d []
  obtain ⟨fc, fii, fk⟩ := matchFilesPhase_spec fr excl dp (fileNames es) _ hch1'
  have h1 : (scanLevel dr fr excl dp es st).1 =
      matchFilesPhase fr excl dp (fileNames es)
        (matchDirsPhase dr excl dp ((dirNames es).filter (fun d => d ≠ ".git")) st).1 := rfl
  have h2 : (scanLevel dr fr excl dp es st).2 =
      (matchDirsPhase dr excl dp ((dirNames es).filter (fun d => d ≠ ".git")) st).2 := rfl
  refine ⟨?_, ?_, ?_, ?_⟩
  · rw [h1, h2, fc, dc]
  · intro d
    rw [h2, dpr d]
  · intro cat p
    rw [h1, fii cat p, dii cat p]
    exact or_assoc
  · rw [h1]
    exact fk (dk hkeys)

theorem levelInv_establish (dr fr : List Rule) (excl : List String) (dp : PathC) (es : FSL)
    (st st2 : ScanSt) (pruned : List String)
    (hti : TreeInv dp st) (lo : LevelOut dr fr excl dp es st st2 pruned) :
    LevelInv dp pruned es st2 := by
  refine ⟨?_, ?_, ?_, ?_, ?_⟩
  · intro c hc
    rw [lo.chosenEq] at hc
    rcases List.mem_append.mp hc with h | h
    · exact (hti.hch c h).1
    · simp only [List.mem_map] at h
      obtain ⟨d, _, rfl⟩ := h
      exact not_prefix_of_append_cons dp d []
  · intro c hc m rest' hce
    rw [lo.chosenEq] at hc
    rcases List.mem_append.mp hc with h | h
    · exact absurd ⟨m :: rest', hce.symm⟩ (hti.hch c h).2
    · simp only [List.mem_map] at h
      obtain ⟨d, hd, rfl⟩ := h
      obtain ⟨rfl, _⟩ := append_cons_inj dp m d rest' [] hce.symm
      exact Or.inl hd
  · intro cat p hp m rest' hpe
    rcases (lo.itemIff cat p).mp hp with h | ⟨d, r, hd, _, _, hpd, _⟩ | ⟨f, r, hf, _, _, hpf, _⟩
    · exfalso
      have := hti.hit cat p h ⟨m :: rest', hpe.symm⟩
      rw [this] at hpe
      have := congrArg List.length hpe
      simp at this
    · subst hpd
      obtain ⟨rfl, hre⟩ := append_cons_inj dp m d rest' [] hpe.symm
      exact Or.inl hre
    · subst hpf
      obtain ⟨rfl, hre⟩ := append_cons_inj dp m f rest' [] hpe.symm
      exact Or.inl hre
  · intro cat p hp c hc
    rintro ⟨hpre, hne⟩
    rw [lo.chosenEq] at hc
    rcases (lo.itemIff cat p).mp hp with hold | ⟨d, r, hd, _, _, hpd, _⟩ | ⟨f, r, hf, _, _, hpf, _⟩
    · rcases List.mem_append.mp hc with h | h
      · exact hti.hnoanc cat p hold c h ⟨hpre, hne⟩
      · simp only [List.mem_map] at h
        obtain ⟨d, _, rfl⟩ := h
        have hdp : dp <+: p := (List.prefix_append dp [d]).trans hpre
        have := hti.hit cat p hold hdp
        subst this
        have := hpre.length_le
        simp at this
    · subst hpd
      rcases List.mem_append.mp hc with h | h
      · rcases List.prefix_concat_iff.mp hpre with he | hpre'
        · exact hne he
        · exact (hti.hch c h).1 hpre'
      · simp only [List.mem_map] at h
        obtain ⟨d', _, rfl⟩ := h
        have hlen : (dp ++ [d']).length = (dp ++ [d]).length := by simp
        exact hne (hpre.eq_of_length hlen)
    · subst hpf
      rcases List.mem_append.mp hc with h | h
      · rcases List.prefix_concat_iff.mp hpre with he | hpre'
        · exact hne he
        · exact (hti.hch c h).1 hpre'
      · simp only [List.mem_map] at h
        obtain ⟨d', _, rfl⟩ := h
        have hlen : (dp ++ [d']).length = (dp ++ [f]).length := by simp
        exact hne (hpre.eq_of_length hlen)
  · exact lo.keys

theorem treeInv_child (dp : PathC) (pruned : List String) (n : String) (cs rest : FSL)
    (st : ScanSt) (li : LevelInv dp pruned (.cons (.dir n cs) rest) st)
    (hn2 : n ∉ pruned) : TreeInv (dp ++ [n]) st := by
  have hnname : n ∈ entryNames (FSL.cons (.dir n cs) rest) := by
    rw [entryNames_cons]
    exact List.mem_cons_self _ _
  refine ⟨?_, ?_, ?_, ?_⟩
  · intro c hc
    constructor
    · intro hpre
      rcases List.prefix_concat_iff.mp hpre with he | hpre'
      · rcases li.hch2 c hc n [] he with h | h
        · exact hn2 h
        · exact h hnname
      · exact li.hch1 c hc hpre'
    · rintro ⟨t, ht⟩
      rw [List.append_assoc] at ht
      rcases li.hch2 c hc n t ht.symm with h | h
      · exact hn2 h
      · exact h hnname
  · intro cat p hp
    rintro ⟨t, ht⟩
    rw [List.append_assoc] at ht
    rcases li.hit cat p hp n t ht.symm with h | h | h
    · rw [h] at ht
      rw [← ht]
      simp
    · exact absurd h hn2
    · exact absurd hnname h
  · exact li.hnoanc
  · exact li.hkeys

theorem levelInv_after_child (dr fr : List Rule) (excl : List String) (dp : PathC)
    (pruned : List String) (n : String) (cs rest : FSL) (st R1 : ScanSt)
    (li : LevelInv dp pruned (.cons (.dir n cs) rest) st)
    (hwf : wfForest (.cons (.dir n cs) rest) = true)
    (so : ScanOut dr fr excl (dp ++ [n]) cs st R1) : LevelInv dp pruned rest R1 := by
  have hnrest : n ∉ entryNames rest := by
    have := wf_head_name (.dir n cs) rest hwf
    simpa [FSE.name] using this
  have hnames : ∀ m, m ∉ entryNames (FSL.cons (.dir n cs) rest) → m ∉ entryNames rest := by
    intro m hm hmem
    apply hm
    rw [entryNames_cons]
    exact List.mem_cons_of_mem _ hmem
  refine ⟨?_, ?_, ?_, ?_, ?_⟩
  · intro c hc
    rcases so.chosenNew c hc with h | ⟨s, n', cs', rfl, hs, _⟩
    · exact li.hch1 c h
    · intro hpre
      have := hpre.length_le
      simp only [List.length_append, List.length_cons] at this
      cases s with
      | nil => exact hs rfl
      | cons a b => simp at this; omega
  · intro c hc m rest' hce
    rcases so.chosenNew c hc with h | ⟨s, n', cs', rfl, hs, _⟩
    · rcases li.hch2 c h m rest' hce with hh | hh
      · exact Or.inl hh
      · exact Or.inr (hnames m hh)
    · rw [List.append_assoc] at hce
      obtain ⟨rfl, _⟩ := append_cons_inj dp m n rest' s hce.symm
      exact Or.inr hnrest
  · intro cat p hp m rest' hpe
    rcases so.itemNew cat p hp with h | ⟨s, e, rfl, hs, _, _, _⟩
    · rcases li.hit cat p h m rest' hpe with hh | hh | hh
      · exact Or.inl hh
      · exact Or.inr (Or.inl hh)
      · exact Or.inr (Or.inr (hnames m hh))
    · rw [List.append_assoc] at hpe
      obtain ⟨rfl, _⟩ := append_cons_inj dp m n rest' s hpe.symm
      exact Or.inr (Or.inr hnrest)
  · exact so.noanc
  · exact so.keys

theorem levelInv_tail (dp : PathC) (pruned : List String) (e : FSE) (rest : FSL)
    (st : ScanSt) (li : LevelInv dp pruned (.cons e rest) st) :
    LevelInv dp pruned rest st := by
  have hnames : ∀ m, m ∉ entryNames (FSL.cons e rest) → m ∉ entryNames rest := by
    intro m hm hmem
    apply hm
    rw [entryNames_cons]
    exact List.mem_cons_of_mem _ hmem
  refine ⟨li.hch1, ?_, ?_, li.hnoanc, li.hkeys⟩
  · intro c hc m rest' hce
    rcases li.hch2 c hc m rest' hce with h | h
    · exact Or.inl h
    · exact Or.inr (hnames m h)
  · intro cat p hp m rest' hpe
    rcases li.hit cat p hp m rest' hpe with h | h | h
    · exact Or.inl h
    · exact Or.inr (Or.inl h)
    · exact Or.inr (Or.inr (hnames m h))

/-! ### Lifting the per-subtree characterisations along the walk -/

theorem wf_nodup (es : FSL) (h : wfForest es = true) : nodupStr (entryNames es) = true := by
  simp only [wfForest, Bool.and_eq_true] at h
  exact h.1

theorem dirNames_mem (es : FSL) (d : String) :
    d ∈ dirNames es ↔ ∃ cs, FSE.dir d cs ∈ es.toList := by
  simp only [dirNames, List.mem_filterMap]
  constructor
  · rintro ⟨e, hm, he⟩
    cases e with
    | file nm sz => simp at he
    | dir nm cs =>
      simp only [Option.some_inj] at he
      subst he
      exact ⟨cs, hm⟩
  · rintro ⟨cs, hm⟩
    exact ⟨.dir d cs, hm, rfl⟩

theorem fileNames_mem (es : FSL) (f : String) :
    f ∈ fileNames es ↔ ∃ sz, FSE.file f sz ∈ es.toList := by
  simp only [fileNames, List.mem_filterMap]
  constructor
  · rintro ⟨e, hm, he⟩
    cases e with
    | dir nm cs => simp at he
    | file nm sz =>
      simp only [Option.some_inj] at he
      subst he
      exact ⟨sz, hm⟩
  · rintro ⟨sz, hm⟩
    exact ⟨.file f sz, hm, rfl⟩

theorem newChosen_child (dp : PathC) (n : String) (cs rest : FSL) (c : PathC)
    (h : NewChosen (dp ++ [n]) cs c) : NewChosen dp (.cons (.dir n cs) rest) c := by
  obtain ⟨s, n', cs', rfl, hs, hf⟩ := h
  refine ⟨n :: s, n', cs', by rw [List.append_assoc]; rfl, by simp, ?_⟩
  rw [findEntry_cons_dir n cs rest s hs]
  exact hf

theorem newChosen_tail (dp : PathC) (e : FSE) (rest : FSL) (c : PathC)
    (hwf : wfForest (.cons e rest) = true) (h : NewChosen dp rest c) :
    NewChosen dp (.cons e rest) c := by
  obtain ⟨s, n', cs', hc, hs, hf⟩ := h
  refine ⟨s, n', cs', hc, hs, ?_⟩
  refine findEntry_cons_of_ne e rest s _ hf ?_
  rintro m t rfl hem
  have hmem : m ∈ entryNames rest := findEntry_head_mem rest m t _ hf
  rw [← hem] at hmem
  exact wf_head_name e rest hwf hmem

theorem newItem_mono (dr fr : List Rule) (excl : List String) (dp : PathC) (es : FSL)
    (R R' : ScanSt) (cat : String) (p : PathC)
    (h : NewItem dr fr excl dp es R cat p)
    (hsub : ∀ c ∈ R.chosenDirs, c ∈ R'.chosenDirs) :
    NewItem dr fr excl dp es R' cat p := by
  obtain ⟨s, e, rfl, hs, hf, he, hrest⟩ := h
  refine ⟨s, e, rfl, hs, hf, he, ?_⟩
  cases e with
  | dir nm cs => exact ⟨hrest.1, hsub _ hrest.2⟩
  | file nm sz => exact hrest

theorem newItem_child (dr fr : List Rule) (excl : List String) (dp : PathC) (n : String)
    (cs rest : FSL) (R : ScanSt) (cat : String) (p : PathC)
    (h : NewItem dr fr excl (dp ++ [n]) cs R cat p) :
    NewItem dr fr excl dp (.cons (.dir n cs) rest) R cat p := by
  obtain ⟨s, e, rfl, hs, hf, he, hrest⟩ := h
  refine ⟨n :: s, e, by rw [List.append_assoc]; rfl, by simp, ?_, he, hrest⟩
  rw [findEntry_cons_dir n cs rest s hs]
  exact hf

theorem newItem_tail (dr fr : List Rule) (excl : List String) (dp : PathC) (e : FSE)
    (rest : FSL) (R : ScanSt) (cat : String) (p : PathC)
    (hwf : wfForest (.cons e rest) = true)
    (h : NewItem dr fr excl dp rest R cat p) :
    NewItem dr fr excl dp (.cons e rest) R cat p := by
  obtain ⟨s, e', rfl, hs, hf, hex, hrest⟩ := h
  refine ⟨s, e', rfl, hs, ?_, hex, hrest⟩
  refine findEntry_cons_of_ne e rest s _ hf ?_
  rintro m t rfl hem
  have hmem : m ∈ entryNames rest := findEntry_head_mem rest m t _ hf
  rw [← hem] at hmem
  exact wf_head_name e rest hwf hmem

theorem scanOut_lift_tail (dr fr : List Rule) (excl : List String) (dp : PathC) (e : FSE)
    (rest : FSL) (st R : ScanSt) (hwf : wfForest (.cons e rest) = true)
    (so : ScanOut dr fr excl dp rest st R) : ScanOut dr fr excl dp (.cons e rest) st R := by
  refine ⟨so.chosenMono, so.itemMono, ?_, ?_, so.noanc, so.keys⟩
  · intro c hc
    rcases so.chosenNew c hc with h | h
    · exact Or.inl h
    · exact Or.inr (newChosen_tail dp e rest c hwf h)
  · intro cat p hp
    rcases so.itemNew cat p hp with h | h
    · exact Or.inl h
    · exact Or.inr (newItem_tail dr fr excl dp e rest R cat p hwf h)

theorem scanOut_compose_dir (dr fr : List Rule) (excl : List String) (dp : PathC)
    (n : String) (cs rest : FSL) (st R1 R2 : ScanSt)
    (hwf : wfForest (.cons (.dir n cs) rest) = true)
    (so1 : ScanOut dr fr excl (dp ++ [n]) cs st R1)
    (so2 : ScanOut dr fr excl dp rest R1 R2) :
    ScanOut dr fr excl dp (.cons (.dir n cs) rest) st R2 := by
  refine ⟨?_, ?_, ?_, ?_, so2.noanc, so2.keys⟩
  · intro c hc
    exact so2.chosenMono c (so1.chosenMono c hc)
  · intro cat p hp
    exact so2.itemMono cat p (so1.itemMono cat p hp)
  · intro c hc
    rcases so2.chosenNew c hc with h | h
    · rcases so1.chosenNew c h with h2 | h2
      · exact Or.inl h2
      · exact Or.inr (newChosen_child dp n cs rest c h2)
    · exact Or.inr (newChosen_tail dp _ rest c hwf h)
  · intro cat p hp
    rcases so2.itemNew cat p hp with h | h
    · rcases so1.itemNew cat p h with h2 | h2
      · exact Or.inl h2
      · refine Or.inr (newItem_mono dr fr excl dp _ R1 R2 cat p
          (newItem_child dr fr excl dp n cs rest R1 cat p h2) so2.chosenMono)
    · exact Or.inr (newItem_tail dr fr excl dp _ rest R2 cat p hwf h)

theorem scanOut_of_level (dr fr : List Rule) (excl : List String) (dp : PathC) (es : FSL)
    (st st2 R : ScanSt) (pruned : List String) (hwf : wfForest es = true)
    (lo : LevelOut dr fr excl dp es st st2 pruned)
    (so : ScanOut dr fr excl dp es st2 R) : ScanOut dr fr excl dp es st R := by
  have hdirEntry : ∀ d, d ∈ (dirNames es).filter (fun d => d ≠ ".git") →
      ∃ cs, findEntry es [d] = some (.dir d cs) := by
    intro d hd
    have hd' : d ∈ dirNames es := (List.mem_filter.mp hd).1
    obtain ⟨cs, hcs⟩ := (dirNames_mem es d).mp hd'
    refine ⟨cs, ?_⟩
    have := findNamed_of_mem_nodup es (.dir d cs) (wf_nodup es hwf) hcs
    simpa [findEntry, FSE.name] using this
  have hfileEntry : ∀ f, f ∈ fileNames es →
      ∃ sz, findEntry es [f] = some (.file f sz) := by
    intro f hf
    obtain ⟨sz, hsz⟩ := (fileNames_mem es f).mp hf
    refine ⟨sz, ?_⟩
    have := findNamed_of_mem_nodup es (.file f sz) (wf_nodup es hwf) hsz
    simpa [findEntry, FSE.name] using this
  refine ⟨?_, ?_, ?_, ?_, so.noanc, so.keys⟩
  · intro c hc
    apply so.chosenMono
    rw [lo.chosenEq]
    exact List.mem_append.mpr (Or.inl hc)
  · intro cat p hp
    apply so.itemMono
    rw [lo.itemIff]
    exact Or.inl hp
  · intro c hc
    rcases so.chosenNew c hc with h | h
    · rw [lo.chosenEq] at h
      rcases List.mem_append.mp h with h2 | h2
      · exact Or.inl h2
      · simp only [List.mem_map] at h2
        obtain ⟨d, hd, rfl⟩ := h2
        have hd2 := (lo.prunedIff d).mp hd
        obtain ⟨cs, hcs⟩ := hdirEntry d hd2.1
        exact Or.inr ⟨[d], d, cs, rfl, by simp, hcs⟩
    · exact Or.inr h
  · intro cat p hp
    rcases so.itemNew cat p hp with h | h
    · rw [lo.itemIff] at h
      rcases h with h2 | ⟨d, r, hd, hr, hc, rfl, hex⟩ | ⟨f, r, hf, hr, hc, rfl, hex⟩
      · exact Or.inl h2
      · obtain ⟨cs, hcs⟩ := hdirEntry d hd
        refine Or.inr ⟨[d], .dir d cs, rfl, by simp, hcs, hex, ⟨r, ?_, hc⟩, ?_⟩
        · simpa [FSE.name] using hr
        · apply so.chosenMono
          rw [lo.chosenEq]
          refine List.mem_append.mpr (Or.inr ?_)
          simp only [List.mem_map]
          exact ⟨d, (lo.prunedIff d).mpr ⟨hd, by rw [hr]; simp⟩, rfl⟩
      · obtain ⟨sz, hsz⟩ := hfileEntry f hf
        refine Or.inr ⟨[f], .file f sz, rfl, by simp, hsz, hex, ⟨r, ?_, hc⟩⟩
        simpa [FSE.name] using hr
    · exact Or.inr h

theorem scanRest_nil (dr fr : List Rule) (excl : List String) (dp : PathC)
    (pruned : List String) (st : ScanSt) :
    scanRest dr fr excl dp pruned .nil st = st := rfl

theorem scanRest_file (dr fr : List Rule) (excl : List String) (dp : PathC)
    (pruned : List String) (nm : String) (sz : Nat) (rest : FSL) (st : ScanSt) :
    scanRest dr fr excl dp pruned (.cons (.file nm sz) rest) st =
      scanRest dr fr excl dp pruned rest st := rfl

theorem scanRest_dir (dr fr : List Rule) (excl : List String) (dp : PathC)
    (pruned : List String) (n : String) (cs rest : FSL) (st : ScanSt) :
    scanRest dr fr excl dp pruned (.cons (.dir n cs) rest) st =
      scanRest dr fr excl dp pruned rest
        (if n = ".git" ∨ pruned.contains n then st
         else scanTree dr fr excl (dp ++ [n]) cs st) := by
  rw [scanRest]
  rfl

theorem scanTree_eq (dr fr : List Rule) (excl : List String) (dp : PathC) (es : FSL)
    (st : ScanSt) :
    scanTree dr fr excl dp es st =
      scanRest dr fr excl dp (scanLevel dr fr excl dp es st).2 es
        (scanLevel dr fr excl dp es st).1 := rfl

/-- Master lemma: the per-subtree characterisation `ScanOut` holds for the
walk of the remaining entries of one level (`scanRest`) and for the walk
of a whole subtree (`scanTree`), for well-formed trees, by strong
induction on the tree size. -/
theorem masterBoth (dr fr : List Rule) (excl : List String) : ∀ N : Nat,
    (∀ (es : FSL) (dp : PathC) (pruned : List String) (st : ScanSt), sizeOf es ≤ N →
      wfForest es = true → LevelInv dp pruned es st →
      ScanOut dr fr excl dp es st (scanRest dr fr excl dp pruned es st)) ∧
    (∀ (es : FSL) (dp : PathC) (st : ScanSt), sizeOf es ≤ N →
      wfForest es = true → TreeInv dp st →
      ScanOut dr fr excl dp es st (scanTree dr fr excl dp es st)) := by
  intro N
  induction N using Nat.strong_induction_on with
  | _ N ih =>
    have hrestN : ∀ (es : FSL) (dp : PathC) (pruned : List String) (st : ScanSt),
        sizeOf es ≤ N → wfForest es = true → LevelInv dp pruned es st →
        ScanOut dr fr excl dp es st (scanRest dr fr excl dp pruned es st) := by
      intro es dp pruned st hsz hwf hli
      cases es with
      | nil =>
        rw [scanRest_nil]
        exact ⟨fun c hc => hc, fun cat p hp => hp, fun c hc => Or.inl hc,
          fun cat p hp => Or.inl hp, hli.hnoanc, hli.hkeys⟩
      | cons e rest =>
        cases e with
        | file nm sz =>
          rw [scanRest_file]
          have hsz' : sizeOf rest < N := by
            have : sizeOf rest < sizeOf (FSL.cons (.file nm sz) rest) := by
              simp only [FSL.cons.sizeOf_spec, FSE.dir.sizeOf_spec, FSE.file.sizeOf_spec]
              omega
            omega
          have so := ((ih (sizeOf rest) hsz').1) rest dp pruned st le_rfl
            (wf_tail _ _ hwf) (levelInv_tail dp pruned _ rest st hli)
          exact scanOut_lift_tail dr fr excl dp _ rest st _ hwf so
        | dir n cs =>
          rw [scanRest_dir]
          by_cases hskip : n = ".git" ∨ pruned.contains n
          · rw [if_pos hskip]
            have hsz' : sizeOf rest < N := by
              have : sizeOf rest < sizeOf (FSL.cons (.dir n cs) rest) := by
                simp only [FSL.cons.sizeOf_spec, FSE.dir.sizeOf_spec, FSE.file.sizeOf_spec]
                omega
              omega
            have so := ((ih (sizeOf rest) hsz').1) rest dp pruned st le_rfl
              (wf_tail _ _ hwf) (levelInv_tail dp pruned _ rest st hli)
            exact scanOut_lift_tail dr fr excl dp _ rest st _ hwf so
          · rw [if_neg hskip]
            push_neg at hskip
            have hnp : n ∉ pruned := by
              intro hmem
              exact absurd (by simpa using hmem) hskip.2
            have hszcs : sizeOf cs < N := by
              have : sizeOf cs < sizeOf (FSL.cons (.dir n cs) rest) := by
                simp only [FSL.cons.sizeOf_spec, FSE.dir.sizeOf_spec, FSE.file.sizeOf_spec]
                omega
              omega
            have hszrest : sizeOf rest < N := by
              have : sizeOf rest < sizeOf (FSL.cons (.dir n cs) rest) := by
                simp only [FSL.cons.sizeOf_spec, FSE.dir.sizeOf_spec, FSE.file.sizeOf_spec]
                omega
              omega
            have hti := treeInv_child dp pruned n cs rest st hli hnp
            have so1 := ((ih (sizeOf cs) hszcs).2) cs (dp ++ [n]) st le_rfl
              (wf_head_dir n cs rest hwf) hti
            have hli1 := levelInv_after_child dr fr excl dp pruned n cs rest st _ hli hwf so1
            have so2 := ((ih (sizeOf rest) hszrest).1) rest dp pruned _ le_rfl
              (wf_tail _ _ hwf) hli1
            exact scanOut_compose_dir dr fr excl dp n cs rest st _ _ hwf so1 so2
    refine ⟨hrestN, ?_⟩
    intro es dp st hsz hwf hti
    have hch1 : ∀ c ∈ st.chosenDirs, ¬ (c <+: dp) := fun c hc => (hti.hch c hc).1
    have lo := scanLevel_spec dr fr excl dp es st hch1 hti.hkeys
    have hli := levelInv_establish dr fr excl dp es st _ _ hti lo
    have so := hrestN es dp (scanLevel dr fr excl dp es st).2
      (scanLevel dr fr excl dp es st).1 hsz hwf hli
    rw [scanTree_eq]
    exact scanOut_of_level dr fr excl dp es st _ _ _ hwf lo so

/-! ### From the walk to the `scan` result -/

theorem ItemIn_empty (cat : String) (p : PathC) : ¬ ItemIn ⟨[], []⟩ cat p := by
  simp [ItemIn, bucketOf]

theorem treeInv_init (dp : PathC) : TreeInv dp ⟨[], []⟩ := by
  refine ⟨?_, ?_, ?_, ?_⟩
  · intro c hc
    simp at hc
  · intro cat p hp
    exact absurd hp (ItemIn_empty _ _)
  · intro cat p hp
    exact absurd hp (ItemIn_empty _ _)
  · simp

theorem master_scan (root : PathC) (tree : FSL) (inc : Bool) (only excl : List String)
    (hwf : wfForest tree = true) :
    ScanOut (build_rule_index inc only).1 (build_rule_index inc only).2 excl root tree
      ⟨[], []⟩ (scanState root tree inc only excl) :=
  ((masterBoth (build_rule_index inc only).1 (build_rule_index inc only).2 excl
    (sizeOf tree)).2) tree root ⟨[], []⟩ le_rfl hwf (treeInv_init root)

theorem bucketOf_of_mem_nodup (m : List (String × List PathC)) (kv : String × List PathC)
    (hm : kv ∈ m) (hnd : (m.map Prod.fst).Nodup) : bucketOf m kv.1 = kv.2 := by
  induction m with
  | nil => simp at hm
  | cons kv' m' ih =>
    rw [bucketOf_cons]
    rcases List.mem_cons.mp hm with rfl | hm'
    · simp
    · rw [List.map_cons, List.nodup_cons] at hnd
      have hne : ¬ (kv'.1 = kv.1) := by
        intro he
        apply hnd.1
        rw [he]
        exact List.mem_map.mpr ⟨kv, hm', rfl⟩
      rw [if_neg hne]
      exact ih hm' hnd.2

theorem scan_mem_ItemIn (root : PathC) (tree : FSL) (inc : Bool) (only excl : List String)
    (hwf : wfForest tree = true) (cat : String) (items : List PathC) (sz : Nat)
    (h : (cat, items, sz) ∈ scan root tree inc only excl) (p : PathC) (hp : p ∈ items) :
    ItemIn (scanState root tree inc only excl) cat p := by
  have hscan : scan root tree inc only excl =
      (scanState root tree inc only excl).matchesDict.map
        (fun kv => (kv.1, dedupKeepFirst kv.2,
          ((dedupKeepFirst kv.2).map (fun p => path_size tree root p)).sum)) := rfl
  rw [hscan] at h
  obtain ⟨kv, hkv, he⟩ := List.mem_map.mp h
  have hcat : kv.1 = cat := congrArg Prod.fst he
  have hitems : dedupKeepFirst kv.2 = items := congrArg (fun x => x.2.1) he
  have hp2 : p ∈ kv.2 := by
    rw [← hitems] at hp
    exact ((mem_dedupAcc p kv.2 []).mp hp).1
  have hb := bucketOf_of_mem_nodup (scanState root tree inc only excl).matchesDict kv hkv
    (master_scan root tree inc only excl hwf).keys
  rw [ItemIn, ← hcat, hb]
  exact hp2

theorem scan_item_shape (root : PathC) (tree : FSL) (inc : Bool) (only excl : List String)
    (hwf : wfForest tree = true) (cat : String) (p : PathC)
    (hin : ItemIn (scanState root tree inc only excl) cat p) :
    NewItem (build_rule_index inc only).1 (build_rule_index inc only).2 excl root tree
      (scanState root tree inc only excl) cat p := by
  rcases (master_scan root tree inc only excl hwf).itemNew cat p hin with h | h
  · exact absurd h (ItemIn_empty _ _)
  · exact h

/-- C2: no two paths recorded by a scan (across all categories) are in a
proper-ancestor relation; in particular nothing is reported below a
recorded directory match.  (The tree is well-formed: sibling names are
distinct, as on a real filesystem.) -/
theorem scan_no_nested_matches (root : PathC) (tree : FSL) (inc : Bool)
    (only excl : List String) (hwf : wfForest tree = true)
    (cat1 cat2 : String) (items1 items2 : List PathC) (sz1 sz2 : Nat) (p q : PathC)
    (h1 : (cat1, items1, sz1) ∈ scan root tree inc only excl)
    (h2 : (cat2, items2, sz2) ∈ scan root tree inc only excl)
    (hp : p ∈ items1) (hq : q ∈ items2) :
    properAncestor p q = false := by
  cases hix : properAncestor p q
  · rfl
  exfalso
  have hanc : p <+: q ∧ p ≠ q := by
    simpa [properAncestor, List.isPrefixOf_iff_prefix, -ne_eq] using hix
  have hip := scan_mem_ItemIn root tree inc only excl hwf cat1 items1 sz1 h1 p hp
  have hiq := scan_mem_ItemIn root tree inc only excl hwf cat2 items2 sz2 h2 q hq
  obtain ⟨sp, ep, hpe, hsp, hfp, _, hmp⟩ := scan_item_shape root tree inc only excl hwf cat1 p hip
  obtain ⟨sq, eq', hqe, hsq, hfq, _, _⟩ := scan_item_shape root tree inc only excl hwf cat2 q hiq
  have hps : sp <+: sq := by
    rw [← List.prefix_append_right_inj root, ← hpe, ← hqe]
    exact hanc.1
  have hnes : sp ≠ sq := by
    intro he
    apply hanc.2
    rw [hpe, hqe, he]
  obtain ⟨n, cs, hdir⟩ := findEntry_strict_prefix_dir sq tree eq' hfq sp hps hsp hnes
  rw [hfp] at hdir
  obtain rfl : ep = .dir n cs := by simpa using hdir
  exact (master_scan root tree inc only excl hwf).noanc cat2 q hiq p hmp.2 ⟨hanc.1, hanc.2⟩

theorem scan_no_nested_matches_witness :
    properAncestor ["repo", "project", "node_modules"] ["repo", "project", "app.pyc"] = false :=
  scan_no_nested_matches ["repo"] sampleTree false [] [] (by decide)
    "Node/JS" "Python" [["repo", "project", "node_modules"]] [["repo", "project", "app.pyc"]]
    10 3 ["repo", "project", "node_modules"] ["repo", "project", "app.pyc"]
    (by decide) (by decide) (by decide) (by decide)

/-- C5: a path whose base name or full path string matches an exclude
glob is never recorded by the scan, even when its name matches an
inclusion rule. -/
theorem scan_exclude_glob_filter (root : PathC) (tree : FSL) (inc : Bool)
    (only excl : List String) (hwf : wfForest tree = true)
    (cat : String) (items : List PathC) (sz : Nat) (p : PathC)
    (h : (cat, items, sz) ∈ scan root tree inc only excl) (hp : p ∈ items) :
    should_exclude_by_glob p excl = false := by
  obtain ⟨s, e, _, _, _, hex, _⟩ := scan_item_shape root tree inc only excl hwf cat p
    (scan_mem_ItemIn root tree inc only excl hwf cat items sz h p hp)
  exact hex

theorem scan_exclude_glob_filter_witness :
    should_exclude_by_glob ["repo", "project", "app.pyc"] [] = false ∧
    should_exclude_by_glob ["repo", "project", "node_modules"] ["*.pyc"] = false :=
  ⟨scan_exclude_glob_filter ["repo"] sampleTree false [] [] (by decide)
     "Python" [["repo", "project", "app.pyc"]] 3 ["repo", "project", "app.pyc"]
     (by decide) (by decide),
   scan_exclude_glob_filter ["repo"] sampleTree false [] ["*.pyc"] (by decide)
     "Node/JS" [["repo", "project", "node_modules"]] 10 ["repo", "project", "node_modules"]
     (by decide) (by decide)⟩

/-- C6: every recorded match derives from a rule selected by
`build_rule_index`: its category is the recorded category, it is not
risky unless `include_risky` is set, and its category belongs to
`only_cats` whenever that filter is non-empty. -/
theorem scan_rule_filter (root : PathC) (tree : FSL) (inc : Bool)
    (only excl : List String) (hwf : wfForest tree = true)
    (cat : String) (items : List PathC) (sz : Nat) (p : PathC)
    (h : (cat, items, sz) ∈ scan root tree inc only excl) (hp : p ∈ items) :
    ∃ r ∈ RULES, r.cat = cat ∧ (inc = false → r.risk ≠ "risky") ∧
      (only ≠ [] → cat ∈ only) := by
  obtain ⟨s, e, _, _, _, _, hmatch⟩ := scan_item_shape root tree inc only excl hwf cat p
    (scan_mem_ItemIn root tree inc only excl hwf cat items sz h p hp)
  have hsel : ∃ r, r ∈ RULES ∧
      (!(!only.isEmpty && !only.contains r.cat) && !(r.risk == "risky" && !inc)) = true ∧
      r.cat = cat := by
    cases e with
    | dir nm cs =>
      obtain ⟨⟨r, hr, hc⟩, _⟩ := hmatch
      have hmem := List.mem_of_find?_eq_some hr
      simp only [build_rule_index, List.mem_filter] at hmem
      exact ⟨r, hmem.1.1, hmem.1.2, hc⟩
    | file nm sz' =>
      obtain ⟨r, hr, hc⟩ := hmatch
      have hmem := List.mem_of_find?_eq_some hr
      simp only [build_rule_index, List.mem_filter] at hmem
      exact ⟨r, hmem.1.1, hmem.1.2, hc⟩
  obtain ⟨r, hrules, hcond, hc⟩ := hsel
  rw [Bool.and_eq_true, Bool.not_eq_true', Bool.not_eq_true'] at hcond
  refine ⟨r, hrules, hc, ?_, ?_⟩
  · intro hinc hrisky
    have h2 : (r.risk == "risky" && !inc) = false := hcond.2
    rw [hinc] at h2
    simp [hrisky] at h2
  · intro honly
    have h1 : (!only.isEmpty && !only.contains r.cat) = false := hcond.1
    have hne : (!only.isEmpty) = true := by
      simp [List.isEmpty_iff, honly]
    rw [hne, Bool.true_and] at h1
    have hmem2 : only.contains r.cat = true := by
      simpa using h1
    rw [← hc]
    simpa using hmem2

theorem ItemIn_exists_kv (st : ScanSt) (cat : String) (p : PathC) (h : ItemIn st cat p) :
    ∃ kv ∈ st.matchesDict, kv.1 = cat ∧ p ∈ kv.2 := by
  rw [ItemIn, bucketOf] at h
  cases hf : st.matchesDict.find? (fun kv => kv.1 == cat) with
  | none => rw [hf] at h; simp at h
  | some kv =>
    rw [hf] at h
    refine ⟨kv, List.mem_of_find?_eq_some hf, ?_, h⟩
    have := List.find?_some hf
    simpa using this

theorem mem_eq_of_keys_nodup (m : List (String × List PathC)) (kv kv' : String × List PathC)
    (h1 : kv ∈ m) (h2 : kv' ∈ m) (hk : kv.1 = kv'.1)
    (hnd : (m.map Prod.fst).Nodup) : kv = kv' := by
  induction m with
  | nil => simp at h1
  | cons kv0 m' ih =>
    rw [List.map_cons, List.nodup_cons] at hnd
    rcases List.mem_cons.mp h1 with rfl | h1' <;> rcases List.mem_cons.mp h2 with rfl | h2'
    · rfl
    · exfalso
      apply hnd.1
      rw [hk]
      exact List.mem_map.mpr ⟨kv', h2', rfl⟩
    · exfalso
      apply hnd.1
      rw [← hk]
      exact List.mem_map.mpr ⟨kv, h1', rfl⟩
    · exact ih h1' h2' hnd.2

theorem scan_item_cat_unique (root : PathC) (tree : FSL) (inc : Bool)
    (only excl : List String) (hwf : wfForest tree = true) (cat1 cat2 : String) (p : PathC)
    (h1 : ItemIn (scanState root tree inc only excl) cat1 p)
    (h2 : ItemIn (scanState root tree inc only excl) cat2 p) : cat1 = cat2 := by
  obtain ⟨s1, e1, hp1, _, hf1, _, m1⟩ := scan_item_shape root tree inc only excl hwf cat1 p h1
  obtain ⟨s2, e2, hp2, _, hf2, _, m2⟩ := scan_item_shape root tree inc only excl hwf cat2 p h2
  have hs : s1 = s2 := List.append_cancel_left (hp1.symm.trans hp2)
  subst hs
  rw [hf1] at hf2
  obtain rfl : e1 = e2 := by simpa using hf2
  cases e1 with
  | dir nm cs =>
    obtain ⟨⟨r1, hr1, hc1⟩, _⟩ := m1
    obtain ⟨⟨r2, hr2, hc2⟩, _⟩ := m2
    rw [hr1] at hr2
    obtain rfl : r1 = r2 := by simpa using hr2
    rw [← hc1, ← hc2]
  | file nm sz =>
    obtain ⟨r1, hr1, hc1⟩ := m1
    obtain ⟨r2, hr2, hc2⟩ := m2
    rw [hr1] at hr2
    obtain rfl : r1 = r2 := by simpa using hr2
    rw [← hc1, ← hc2]

theorem scan_rule_filter_witness :
    (∃ r ∈ RULES, r.cat = "Python" ∧ (false = false → r.risk ≠ "risky") ∧
      ((["Python", "Misc"] : List String) ≠ [] → "Python" ∈ (["Python", "Misc"] : List String))) :=
  scan_rule_filter ["repo"] sampleTree false ["Python", "Misc"] [] (by decide)
    "Python" [["repo", "project", "app.pyc"]] 3 ["repo", "project", "app.pyc"]
    (by decide) (by decide)

/-- Contribution lemma: a directory reachable by the walk (`ReachDown`)
whose base name matches a selected directory rule, and which is not
glob-excluded, ends up recorded under its rule's category and listed in
`chosen_dirs` — both for the walk of one level's remaining entries
(`scanRest`, given the first descent step explicitly) and for the walk of
a whole subtree (`scanTree`). -/
theorem contribBoth (dr fr : List Rule) (excl : List String) : ∀ N : Nat,
    (∀ (es : FSL) (dp : PathC) (pruned : List String) (st : ScanSt), sizeOf es ≤ N →
      wfForest es = true → LevelInv dp pruned es st →
      ∀ (n : String) (cs : FSL), FSE.dir n cs ∈ es.toList → n ≠ ".git" → n ∉ pruned →
      ∀ (s : List String) (es' : FSL), ReachDown dr cs s es' →
      ∀ (d : String) (cs' : FSL) (r : Rule), FSE.dir d cs' ∈ es'.toList → d ≠ ".git" →
      firstMatchRule dr d = some r →
      should_exclude_by_glob (dp ++ [n] ++ s ++ [d]) excl = false →
      ItemIn (scanRest dr fr excl dp pruned es st) r.cat (dp ++ [n] ++ s ++ [d]) ∧
        dp ++ [n] ++ s ++ [d] ∈ (scanRest dr fr excl dp pruned es st).chosenDirs) ∧
    (∀ (es : FSL) (dp : PathC) (st : ScanSt), sizeOf es ≤ N →
      wfForest es = true → TreeInv dp st →
      ∀ (s : List String) (es' : FSL), ReachDown dr es s es' →
      ∀ (d : String) (cs' : FSL) (r : Rule), FSE.dir d cs' ∈ es'.toList → d ≠ ".git" →
      firstMatchRule dr d = some r →
      should_exclude_by_glob (dp ++ s ++ [d]) excl = false →
      ItemIn (scanTree dr fr excl dp es st) r.cat (dp ++ s ++ [d]) ∧
        dp ++ s ++ [d] ∈ (scanTree dr fr excl dp es st).chosenDirs) := by
  intro N
  induction N using Nat.strong_induction_on with
  | _ N ih =>
    have hrestN : ∀ (es : FSL) (dp : PathC) (pruned : List String) (st : ScanSt),
        sizeOf es ≤ N → wfForest es = true → LevelInv dp pruned es st →
        ∀ (n : String) (cs : FSL), FSE.dir n cs ∈ es.toList → n ≠ ".git" → n ∉ pruned →
        ∀ (s : List String) (es' : FSL), ReachDown dr cs s es' →
        ∀ (d : String) (cs' : FSL) (r : Rule), FSE.dir d cs' ∈ es'.toList → d ≠ ".git" →
        firstMatchRule dr d = some r →
        should_exclude_by_glob (dp ++ [n] ++ s ++ [d]) excl = false →
        ItemIn (scanRest dr fr excl dp pruned es st) r.cat (dp ++ [n] ++ s ++ [d]) ∧
          dp ++ [n] ++ s ++ [d] ∈ (scanRest dr fr excl dp pruned es st).chosenDirs := by
      intro es dp pruned st hsz hwf hli n cs hn hng hnp s es' hrd d cs' r htg hdg hF hexcl
      cases es with
      | nil => simp [FSL.toList] at hn
      | cons e rest =>
        cases e with
        | file nm fsz =>
          rw [scanRest_file]
          simp only [FSL.toList, List.mem_cons] at hn
          rcases hn with hh | hn'
          · exact FSE.noConfusion hh
          · have hszr : sizeOf rest < N := by
              have : sizeOf rest < sizeOf (FSL.cons (.file nm fsz) rest) := by
                simp only [FSL.cons.sizeOf_spec, FSE.dir.sizeOf_spec, FSE.file.sizeOf_spec]
                omega
              omega
            exact ((ih (sizeOf rest) hszr).1) rest dp pruned st le_rfl (wf_tail _ _ hwf)
              (levelInv_tail dp pruned _ rest st hli) n cs hn' hng hnp s es' hrd
              d cs' r htg hdg hF hexcl
        | dir m ms =>
          rw [scanRest_dir]
          simp only [FSL.toList, List.mem_cons] at hn
          rcases hn with hh | hn'
          · injection hh with h1 h2
            subst h1
            subst h2
            have hcond : ¬ (n = ".git" ∨ pruned.contains n) := by
              rintro (h | h)
              · exact hng h
              · exact hnp (by simpa using h)
            rw [if_neg hcond]
            have hszcs : sizeOf cs < N := by
              have : sizeOf cs < sizeOf (FSL.cons (.dir n cs) rest) := by
                simp only [FSL.cons.sizeOf_spec, FSE.dir.sizeOf_spec, FSE.file.sizeOf_spec]
                omega
              omega
            have hszr : sizeOf rest < N := by
              have : sizeOf rest < sizeOf (FSL.cons (.dir n cs) rest) := by
                simp only [FSL.cons.sizeOf_spec, FSE.dir.sizeOf_spec, FSE.file.sizeOf_spec]
                omega
              omega
            have hti := treeInv_child dp pruned n cs rest st hli hnp
            have htree := ((ih (sizeOf cs) hszcs).2) cs (dp ++ [n]) st le_rfl
              (wf_head_dir n cs rest hwf) hti s es' hrd d cs' r htg hdg hF hexcl
            have so1 := ((masterBoth dr fr excl (sizeOf cs)).2) cs (dp ++ [n]) st le_rfl
              (wf_head_dir n cs rest hwf) hti
            have hli1 := levelInv_after_child dr fr excl dp pruned n cs rest st _ hli hwf so1
            have so2 := ((masterBoth dr fr excl (sizeOf rest)).1) rest dp pruned _ le_rfl
              (wf_tail _ _ hwf) hli1
            exact ⟨so2.itemMono _ _ htree.1, so2.chosenMono _ htree.2⟩
          · by_cases hskip : m = ".git" ∨ pruned.contains m
            · rw [if_pos hskip]
              have hszr : sizeOf rest < N := by
                have : sizeOf rest < sizeOf (FSL.cons (.dir m ms) rest) := by
                  simp only [FSL.cons.sizeOf_spec, FSE.dir.sizeOf_spec, FSE.file.sizeOf_spec]
                  omega
                omega
              exact ((ih (sizeOf rest) hszr).1) rest dp pruned st le_rfl (wf_tail _ _ hwf)
                (levelInv_tail dp pruned _ rest st hli) n cs hn' hng hnp s es' hrd
                d cs' r htg hdg hF hexcl
            · rw [if_neg hskip]
              push_neg at hskip
              have hmp : m ∉ pruned := by
                intro hmem
                exact absurd (by simpa using hmem) hskip.2
              have hszms : sizeOf ms < N := by
                have : sizeOf ms < sizeOf (FSL.cons (.dir m ms) rest) := by
                  simp only [FSL.cons.sizeOf_spec, FSE.dir.sizeOf_spec, FSE.file.sizeOf_spec]
                  omega
                omega
              have hszr : sizeOf rest < N := by
                have : sizeOf rest < sizeOf (FSL.cons (.dir m ms) rest) := by
                  simp only [FSL.cons.sizeOf_spec, FSE.dir.sizeOf_spec, FSE.file.sizeOf_spec]
                  omega
                omega
              have hti := treeInv_child dp pruned m ms rest st hli hmp
              have so1 := ((masterBoth dr fr excl (sizeOf ms)).2) ms (dp ++ [m]) st le_rfl
                (wf_head_dir m ms rest hwf) hti
              have hli1 := levelInv_after_child dr fr excl dp pruned m ms rest st _ hli hwf so1
              exact ((ih (sizeOf rest) hszr).1) rest dp pruned _ le_rfl (wf_tail _ _ hwf)
                hli1 n cs hn' hng hnp s es' hrd d cs' r htg hdg hF hexcl
    refine ⟨hrestN, ?_⟩
    intro es dp st hsz hwf hti s es' hrd d cs' r htg hdg hF hexcl
    have hch1 : ∀ c ∈ st.chosenDirs, ¬ (c <+: dp) := fun c hc => (hti.hch c hc).1
    have lo := scanLevel_spec dr fr excl dp es st hch1 hti.hkeys
    have hli := levelInv_establish dr fr excl dp es st _ _ hti lo
    rw [scanTree_eq]
    cases hrd with
    | here =>
      simp only [List.append_nil] at hexcl ⊢
      have hdn : d ∈ (dirNames es).filter (fun x => x ≠ ".git") :=
        List.mem_filter.mpr ⟨(dirNames_mem es d).mpr ⟨cs', htg⟩, by simpa using hdg⟩
      have hpr : d ∈ (scanLevel dr fr excl dp es st).2 :=
        (lo.prunedIff d).mpr ⟨hdn, by rw [hF]; simp⟩
      have hitem2 : ItemIn (scanLevel dr fr excl dp es st).1 r.cat (dp ++ [d]) :=
        (lo.itemIff r.cat (dp ++ [d])).mpr (Or.inr (Or.inl ⟨d, r, hdn, hF, rfl, rfl, hexcl⟩))
      have hchosen2 : dp ++ [d] ∈ (scanLevel dr fr excl dp es st).1.chosenDirs := by
        rw [lo.chosenEq]
        exact List.mem_append.mpr (Or.inr (List.mem_map.mpr ⟨d, hpr, rfl⟩))
      have so := ((masterBoth dr fr excl (sizeOf es)).1) es dp _ _ le_rfl hwf hli
      exact ⟨so.itemMono _ _ hitem2, so.chosenMono _ hchosen2⟩
    | step hmem hng2 hnone hrd2 =>
      rename_i n cs rest2
      have hnp : n ∉ (scanLevel dr fr excl dp es st).2 := by
        intro hmem2
        exact ((lo.prunedIff n).mp hmem2).2 hnone
      have hpe : dp ++ [n] ++ rest2 ++ [d] = dp ++ (n :: rest2) ++ [d] := by simp
      rw [← hpe] at hexcl ⊢
      exact hrestN es dp _ _ hsz hwf hli n cs hmem hng2 hnp rest2 es' hrd2
        d cs' r htg hdg hF hexcl

theorem cntP_zero (p : PathC) : ∀ l : List PathC, p ∉ l → cntP p l = 0 := by
  intro l
  induction l with
  | nil => intro h; rfl
  | cons q rest ih =>
    intro h
    have hq : ¬ (q = p) := by
      intro he
      exact h (by rw [he]; exact List.mem_cons_self p rest)
    rw [cntP, if_neg hq, ih (fun hm => h (List.mem_cons_of_mem _ hm))]

theorem cntP_one (p : PathC) : ∀ l : List PathC, l.Nodup → p ∈ l → cntP p l = 1 := by
  intro l
  induction l with
  | nil => intro _ h; simp at h
  | cons q rest ih =>
    intro hnd hm
    rw [List.nodup_cons] at hnd
    rcases List.mem_cons.mp hm with rfl | hm'
    · rw [cntP, if_pos rfl, cntP_zero p rest hnd.1]
    · have hq : ¬ (q = p) := by
        intro he
        subst he
        exact hnd.1 hm'
      rw [cntP, if_neg hq, ih hnd.2 hm']

theorem scan_entry_shape (root : PathC) (tree : FSL) (inc : Bool) (only excl : List String)
    (cat : String) (items : List PathC) (sz : Nat)
    (h : (cat, items, sz) ∈ scan root tree inc only excl) :
    ∃ kv ∈ (scanState root tree inc only excl).matchesDict,
      kv.1 = cat ∧ items = dedupKeepFirst kv.2 := by
  have hscan : scan root tree inc only excl =
      (scanState root tree inc only excl).matchesDict.map
        (fun kv => (kv.1, dedupKeepFirst kv.2,
          ((dedupKeepFirst kv.2).map (fun p => path_size tree root p)).sum)) := rfl
  rw [hscan] at h
  obtain ⟨kv, hkv, he⟩ := List.mem_map.mp h
  exact ⟨kv, hkv, congrArg Prod.fst he, (congrArg (fun x => x.2.1) he).symm⟩

/-- C3: a subdirectory encountered during the scan — reachable from the
root by descending only through non-`.git` directories matching no
selected directory rule — whose base name matches a selected directory
rule, and which is not dropped by an exclude glob, is recorded exactly
once: it appears with multiplicity one in the bucket of its first
matching rule's category, appears in no other bucket, and — because the
walk never descends into it — no path strictly beneath it is recorded in
any bucket. -/
theorem scan_matched_dir_once_no_descent (root : PathC) (tree : FSL) (inc : Bool)
    (only excl : List String) (s : List String) (es' : FSL) (d : String) (cs' : FSL)
    (r : Rule) (hwf : wfForest tree = true)
    (hreach : ReachDown (build_rule_index inc only).1 tree s es')
    (htg : FSE.dir d cs' ∈ es'.toList) (hdg : d ≠ ".git")
    (hF : firstMatchRule (build_rule_index inc only).1 d = some r)
    (hexcl : should_exclude_by_glob (root ++ s ++ [d]) excl = false) :
    ∃ items sz, (r.cat, items, sz) ∈ scan root tree inc only excl ∧
      root ++ s ++ [d] ∈ items ∧ cntP (root ++ s ++ [d]) items = 1 ∧
      (∀ cat2 items2 sz2, (cat2, items2, sz2) ∈ scan root tree inc only excl →
        root ++ s ++ [d] ∈ items2 → cat2 = r.cat ∧ items2 = items) ∧
      (∀ cat2 items2 sz2 q, (cat2, items2, sz2) ∈ scan root tree inc only excl →
        q ∈ items2 → properAncestor (root ++ s ++ [d]) q = false) := by
  have hcontrib := ((contribBoth (build_rule_index inc only).1 (build_rule_index inc only).2
      excl (sizeOf tree)).2) tree root ⟨[], []⟩ le_rfl hwf (treeInv_init root)
    s es' hreach d cs' r htg hdg hF hexcl
  have hitem : ItemIn (scanState root tree inc only excl) r.cat (root ++ s ++ [d]) :=
    hcontrib.1
  have hch : root ++ s ++ [d] ∈ (scanState root tree inc only excl).chosenDirs :=
    hcontrib.2
  have hkeys := (master_scan root tree inc only excl hwf).keys
  obtain ⟨kv, hkv, hk1, hpkv⟩ := ItemIn_exists_kv _ _ _ hitem
  refine ⟨dedupKeepFirst kv.2,
    ((dedupKeepFirst kv.2).map (fun p => path_size tree root p)).sum, ?_, ?_, ?_, ?_, ?_⟩
  · have hmem : (kv.1, dedupKeepFirst kv.2,
        ((dedupKeepFirst kv.2).map (fun p => path_size tree root p)).sum) ∈
        scan root tree inc only excl := List.mem_map.mpr ⟨kv, hkv, rfl⟩
    rw [hk1] at hmem
    exact hmem
  · exact (mem_dedupAcc _ kv.2 []).mpr ⟨hpkv, by simp⟩
  · exact cntP_one _ _ (nodup_dedupAcc kv.2 [])
      ((mem_dedupAcc _ kv.2 []).mpr ⟨hpkv, by simp⟩)
  · intro cat2 items2 sz2 hmem2 hpmem2
    have hitem2 : ItemIn (scanState root tree inc only excl) cat2 (root ++ s ++ [d]) :=
      scan_mem_ItemIn root tree inc only excl hwf cat2 items2 sz2 hmem2 _ hpmem2
    have hcat : cat2 = r.cat :=
      (scan_item_cat_unique root tree inc only excl hwf r.cat cat2 _ hitem hitem2).symm
    refine ⟨hcat, ?_⟩
    obtain ⟨kv2, hkv2, hk21, hitems2⟩ :=
      scan_entry_shape root tree inc only excl cat2 items2 sz2 hmem2
    have hkveq : kv2 = kv :=
      mem_eq_of_keys_nodup _ kv2 kv hkv2 hkv (by rw [hk21, hk1, hcat]) hkeys
    rw [hitems2, hkveq]
  · intro cat2 items2 sz2 q hmem2 hqmem
    have hiq := scan_mem_ItemIn root tree inc only excl hwf cat2 items2 sz2 hmem2 q hqmem
    cases hix : properAncestor (root ++ s ++ [d]) q
    · rfl
    exfalso
    have hanc : (root ++ s ++ [d]) <+: q ∧ root ++ s ++ [d] ≠ q := by
      simpa [properAncestor, List.isPrefixOf_iff_prefix, -ne_eq] using hix
    exact (master_scan root tree inc only excl hwf).noanc cat2 q hiq _ hch hanc

theorem scan_matched_dir_once_no_descent_witness :
    ∃ items sz, ("Node/JS", items, sz) ∈ scan ["repo"] sampleTree false [] [] ∧
      ["repo", "project", "node_modules"] ∈ items ∧
      cntP ["repo", "project", "node_modules"] items = 1 ∧
      (∀ cat2 items2 sz2, (cat2, items2, sz2) ∈ scan ["repo"] sampleTree false [] [] →
        ["repo", "project", "node_modules"] ∈ items2 → cat2 = "Node/JS" ∧ items2 = items) ∧
      (∀ cat2 items2 sz2 q, (cat2, items2, sz2) ∈ scan ["repo"] sampleTree false [] [] →
        q ∈ items2 → properAncestor ["repo", "project", "node_modules"] q = false) :=
  scan_matched_dir_once_no_descent ["repo"] sampleTree false [] [] ["project"]
    (.cons (.dir "node_modules" (.cons (.file "pkg.js" 10) .nil))
      (.cons (.dir "src" (.cons (.file "app.py" 5) .nil)) (.cons (.file "app.pyc" 3) .nil)))
    "node_modules" (.cons (.file "pkg.js" 10) .nil)
    ⟨"Node/JS", "safe", "dir", "node_modules"⟩ (by decide)
    (ReachDown.step (List.Mem.head _) (by decide) rfl (ReachDown.here _))
    (List.Mem.head _) (by decide) rfl rfl

end RepoCleanup

end Spec2Proof
